import Mathlib

/-!
# Verification of the SSQ lottery recommendation core (`ssq_gui_v3.py`)

Shallow embedding of the recommendation engine (`RecommendEngine`), the
number parser (`SSQCore.parse_numbers`) and the thread message queue
(`MessageQueue`) of the source file `src/ssq_gui_v3.py`.

Modelling conventions:
* Randomness: every call into Python's `random` module consumes values from
  an explicit infinite stream of naturals (`RStream`).  Each primitive is
  defined so that its result is in the documented range for *every* stream,
  mirroring the contract of the corresponding `random` function.
* `while True:` loops of the source are given an explicit fuel parameter;
  running out of fuel yields the distinguished outcome `GenErr.fuelOut`,
  which models non-termination (it is not a Python exception).
* Python exceptions are modelled with `Except`: `IndexError` raised by
  indexing an empty list is `GenErr.indexEmpty`, the `ValueError` of
  `random.sample` when the sample is larger than the population is
  `GenErr.sampleTooLarge`, and the `ValueError` of `random.choices` when the
  total weight is not positive (or the population is empty / mismatched)
  is `GenErr.zeroWeight`.
* Python's `sorted` is a stable sort; it is embedded as Mathlib's
  `List.insertionSort`, which is stable as well, so the two agree on every
  input (a stable sort is extensionally determined by its comparison key).
* A `defaultdict(int)` frequency table is embedded as its `.items()` list,
  i.e. an association list in insertion order; `dict.get(k, d)` becomes
  `pyGet`.
-/

/-- An infinite stream of natural numbers: the source of randomness. -/
abbrev RStream : Type := Nat → Nat

/-- The first element of the stream. -/
def shead (s : RStream) : Nat := s 0

/-- The stream with its first element removed. -/
def stail (s : RStream) : RStream := fun n => s (n + 1)

/-- The stream with its first `k` elements removed. -/
def sdrop (k : Nat) (s : RStream) : RStream := fun n => s (n + k)

/-- Outcomes of a generation run that do not produce a value:
Python exceptions (`indexEmpty`, `sampleTooLarge`, `zeroWeight`) and
fuel exhaustion (`fuelOut`), which models a non-terminating `while` loop. -/
inductive GenErr where
  | indexEmpty : GenErr
  | sampleTooLarge : GenErr
  | zeroWeight : GenErr
  | fuelOut : GenErr
deriving DecidableEq, Repr

/-- A frequency table: the `.items()` association list of a
`defaultdict(int)`, in insertion order.  Keys are ball numbers, values are
occurrence counts. -/
abbrev FreqTable : Type := List (Nat × Nat)

/-- Python `d.get(n, dflt)` on a frequency table. -/
def pyGet (t : FreqTable) (n : Nat) (dflt : Nat) : Nat :=
  ((t.find? (fun p => p.1 == n)).map Prod.snd).getD dflt

/-- One recommendation: the `{'red': ..., 'blue': ...}` dict of the source. -/
structure Recommendation where
  red : List Nat
  blue : Nat
deriving DecidableEq, Repr

/-- Descending-by-count comparison used for `sorted(..., key=lambda x: x[1],
reverse=True)`.  Python's reverse sort is stable, and so is
`insertionSort` with this relation. -/
def cntGe (a b : Nat × Nat) : Prop := b.2 ≤ a.2

/-- Ascending-by-count comparison used for `sorted(..., key=lambda x: x[1])`. -/
def cntLe (a b : Nat × Nat) : Prop := a.2 ≤ b.2

instance : DecidableRel cntGe := fun a b => inferInstanceAs (Decidable (b.2 ≤ a.2))

instance : DecidableRel cntLe := fun a b => inferInstanceAs (Decidable (a.2 ≤ b.2))

instance : IsTotal (Nat × Nat) cntGe := ⟨fun a b => Nat.le_total b.2 a.2⟩

instance : IsTrans (Nat × Nat) cntGe := ⟨fun _ _ _ h h' => Nat.le_trans h' h⟩

instance : IsTotal (Nat × Nat) cntLe := ⟨fun a b => Nat.le_total a.2 b.2⟩

instance : IsTrans (Nat × Nat) cntLe := ⟨fun _ _ _ h h' => Nat.le_trans h h'⟩

/-- Python `sorted(items, key=lambda x: x[1], reverse=True)` (stable). -/
def sortByCountDesc (t : FreqTable) : List (Nat × Nat) := List.insertionSort cntGe t

/-- Python `sorted(items, key=lambda x: x[1])` (stable). -/
def sortByCountAsc (t : FreqTable) : List (Nat × Nat) := List.insertionSort cntLe t

/-- Python `sorted` on a list of numbers. -/
def sortAsc (l : List Nat) : List Nat := List.insertionSort (· ≤ ·) l

/-- The red-ball domain `list(range(1, 34))` = `[1..33]`. -/
def allReds : List Nat := List.range' 1 33

/-- The blue-ball domain `list(range(1, 17))` = `[1..16]`. -/
def allBlues : List Nat := List.range' 1 16

/-- Python `random.randint(lo, hi)`: a value in `[lo, hi]`, consuming one
stream element. -/
def randint (lo hi : Nat) (s : RStream) : Nat × RStream :=
  (lo + shead s % (hi - lo + 1), stail s)

/-- Python `random.choice(seq)`: one element of `seq`, consuming one stream
element (`seq` is nonempty at every use site in the source). -/
def pyChoice (l : List Nat) (s : RStream) : Nat × RStream :=
  (l.getD (shead s % l.length) 0, stail s)

/-- Auxiliary recursion of `random.sample`: draw `k` elements without
replacement by repeatedly removing a position of the remaining population. -/
def sampleAux : Nat → List Nat → RStream → List Nat × RStream
  | 0, _, s => ([], s)
  | k + 1, pop, s =>
    let i := shead s % pop.length
    let x := pop.getD i 0
    let r := sampleAux k (pop.eraseIdx i) (stail s)
    (x :: r.1, r.2)

/-- Python `random.sample(pop, k)`: `k` distinct positions of `pop`;
raises `ValueError` when `k` exceeds the population size. -/
def sample (pop : List Nat) (k : Nat) (s : RStream) :
    Except GenErr (List Nat × RStream) :=
  if k ≤ pop.length then .ok (sampleAux k pop s) else .error .sampleTooLarge

/-- Indices of the population carrying a strictly positive weight: only these
can be returned by `random.choices`. -/
def posIdx (pop : List Nat) (w : List Nat) : List Nat :=
  (List.range pop.length).filter (fun i => decide (0 < w.getD i 0))

/-- Auxiliary recursion of `random.choices`: `k` draws with replacement,
each consuming one stream element and landing on a positive-weight index. -/
def choicesAux (pop : List Nat) (w : List Nat) : Nat → RStream → List Nat × RStream
  | 0, s => ([], s)
  | k + 1, s =>
    let ps := posIdx pop w
    let i := if ps.isEmpty then 0 else ps.getD (shead s % ps.length) 0
    let r := choicesAux pop w k (stail s)
    (pop.getD i 0 :: r.1, r.2)

/-- Python `random.choices(pop, weights=w, k=k)`: `k` weighted draws with
replacement; raises when the population is empty, the weight list has the
wrong length, or the total weight is not positive. -/
def choicesW (pop : List Nat) (w : List Nat) (k : Nat) (s : RStream) :
    Except GenErr (List Nat × RStream) :=
  if pop.isEmpty then .error .indexEmpty
  else if w.length ≠ pop.length then .error .zeroWeight
  else if w.sum ≤ 0 then .error .zeroWeight
  else .ok (choicesAux pop w k s)

/-- Python `random.uniform(0.1, 1.0)`, scaled by `110`: the value
`jitter v` stands for the rational `jitter v / 110`, which lies in
`[0.1, 1.0]`.  All red weights are stored scaled by the common factor
`110`; `random.choices` is invariant under scaling all weights by the same
positive constant, so this keeps the embedding faithful while all
arithmetic stays in `Nat`. -/
def jitter (v : Nat) : Nat := v % 90 + 11

/-- The red weight list of `_frequency_weighted`:
`[red_freq.get(num, 1) + random.uniform(0.1, 1.0) for num in all_reds]`,
consuming 33 stream values; every weight is scaled by `110`
(see `jitter`). -/
def redWeights (rf : FreqTable) (s : RStream) : List Nat × RStream :=
  ((List.range 33).map (fun i => 110 * pyGet rf (i + 1) 1 + jitter (s i)),
    sdrop 33 s)

/-- The blue weight list of `_frequency_weighted`:
`[blue_freq.get(num, 1) for num in all_blues]` (unscaled: only one scale
appears in any single `random.choices` call). -/
def blueWeights (bf : FreqTable) : List Nat :=
  (List.range 16).map (fun i => pyGet bf (i + 1) 1)

/-- The top-up loop of `_frequency_weighted`:
`while len(selected_reds) < 6:` draw a uniform candidate, append it when it
is new, slice to six and re-sort.  Fuel models the unbounded loop. -/
def fillRed (fuel : Nat) (sel : List Nat) (s : RStream) :
    Except GenErr (List Nat × RStream) :=
  if 6 ≤ sel.length then .ok (sel, s)
  else
    match fuel with
    | 0 => .error .fuelOut
    | f + 1 =>
      let c := 1 + shead s % 33
      if c ∈ sel then fillRed f sel (stail s)
      else fillRed f (sortAsc ((sel ++ [c]).take 6)) (stail s)

/-- The `for _ in range(count)` loop shared by all strategies: run the
per-recommendation body `count` times, threading stream and errors. -/
def genLoop (one : RStream → Except GenErr (Recommendation × RStream)) :
    Nat → RStream → Except GenErr (List Recommendation × RStream)
  | 0, s => .ok ([], s)
  | n + 1, s =>
    match one s with
    | .error e => .error e
    | .ok (r, s') =>
      match genLoop one n s' with
      | .error e => .error e
      | .ok (rs, s'') => .ok (r :: rs, s'')

namespace RecommendEngine

/-- One iteration of `_frequency_weighted`: a weighted batch of six draws
with replacement, deduplicated and sorted, topped up to six distinct values
by uniform draws, then one blue draw weighted by `blue_freq`. -/
def fwOne (rf bf : FreqTable) (fuel : Nat) (s : RStream) :
    Except GenErr (Recommendation × RStream) :=
  match choicesW allReds (redWeights rf s).1 6 (redWeights rf s).2 with
  | .error e => .error e
  | .ok (cs, s2) =>
    match fillRed fuel (sortAsc cs.dedup) s2 with
    | .error e => .error e
    | .ok (sel, s3) =>
      match choicesW allBlues (blueWeights bf) 1 s3 with
      | .error e => .error e
      | .ok (bs, s4) => .ok (⟨sel, bs.headD 0⟩, s4)

/-- `RecommendEngine._frequency_weighted` of the source. -/
def frequency_weighted (rf bf : FreqTable) (count fuel : Nat) (s : RStream) :
    Except GenErr (List Recommendation × RStream) :=
  genLoop (fwOne rf bf fuel) count s

/-- One iteration of `_pure_random`. -/
def prOne (s : RStream) : Except GenErr (Recommendation × RStream) :=
  match sample allReds 6 s with
  | .error e => .error e
  | .ok (r, s1) =>
    let b := randint 1 16 s1
    .ok (⟨sortAsc r, b.1⟩, b.2)

/-- `RecommendEngine._pure_random` of the source. -/
def pure_random (count : Nat) (s : RStream) :
    Except GenErr (List Recommendation × RStream) :=
  genLoop prOne count s

/-- The six hottest red keys of `_pure_frequency`. -/
def topSixKeys (rf : FreqTable) : List Nat :=
  ((sortByCountDesc rf).take 6).map Prod.fst

/-- `RecommendEngine._pure_frequency` of the source: deterministic, no
randomness; raises `IndexError` when the blue table is empty. -/
def pure_frequency (rf bf : FreqTable) (count : Nat) :
    Except GenErr (List Recommendation) :=
  let topReds := sortAsc (topSixKeys rf)
  match sortByCountDesc bf with
  | [] => .error .indexEmpty
  | p :: _ => .ok (List.replicate count ⟨topReds, p.1⟩)

/-- The keys of the ten hottest entries used by `_hot_cold_balance`. -/
def hotKeys (rf : FreqTable) : List Nat :=
  ((sortByCountDesc rf).take 10).map Prod.fst

/-- The keys of the ten coldest entries used by `_hot_cold_balance`. -/
def coldKeys (rf : FreqTable) : List Nat :=
  ((sortByCountAsc rf).take 10).map Prod.fst

/-- One iteration of `_hot_cold_balance`: three hot and three cold red
samples, and a coin flip between the hottest and the coldest blue. -/
def hcOne (rf bf : FreqTable) (s : RStream) :
    Except GenErr (Recommendation × RStream) :=
  match sample (hotKeys rf) 3 s with
  | .error e => .error e
  | .ok (hs, s1) =>
    match sample (coldKeys rf) 3 s1 with
    | .error e => .error e
    | .ok (cs, s2) =>
      let sel := sortAsc (hs ++ cs)
      match sortByCountDesc bf with
      | [] => .error .indexEmpty
      | hp :: _ =>
        match sortByCountAsc bf with
        | [] => .error .indexEmpty
        | cp :: _ =>
          let b := pyChoice [hp.1, cp.1] s2
          .ok (⟨sel, b.1⟩, b.2)

/-- `RecommendEngine._hot_cold_balance` of the source. -/
def hot_cold_balance (rf bf : FreqTable) (count : Nat) (s : RStream) :
    Except GenErr (List Recommendation × RStream) :=
  genLoop (hcOne rf bf) count s

/-- One iteration of `_interval_distribution`: two reds from each third of
the domain, and a blue drawn from a randomly chosen half. -/
def idOne (s : RStream) : Except GenErr (Recommendation × RStream) :=
  match sample (List.range' 1 11) 2 s with
  | .error e => .error e
  | .ok (i1, s1) =>
    match sample (List.range' 12 11) 2 s1 with
    | .error e => .error e
    | .ok (i2, s2) =>
      match sample (List.range' 23 11) 2 s2 with
      | .error e => .error e
      | .ok (i3, s3) =>
        let a := randint 1 8 s3
        let b := randint 9 16 a.2
        let c := pyChoice [a.1, b.1] b.2
        .ok (⟨sortAsc (i1 ++ i2 ++ i3), c.1⟩, c.2)

/-- `RecommendEngine._interval_distribution` of the source. -/
def interval_distribution (rf bf : FreqTable) (count : Nat) (s : RStream) :
    Except GenErr (List Recommendation × RStream) :=
  genLoop idOne count s

/-- The odd red numbers `[x for x in range(1, 34) if x % 2 == 1]`. -/
def oddReds : List Nat := (List.range' 1 33).filter (fun x => x % 2 == 1)

/-- The even red numbers `[x for x in range(1, 34) if x % 2 == 0]`. -/
def evenReds : List Nat := (List.range' 1 33).filter (fun x => x % 2 == 0)

/-- One iteration of `_odd_even_balance`: three odd and three even reds,
blue drawn via `random.choice([random.randint(1, 16)])`. -/
def oeOne (s : RStream) : Except GenErr (Recommendation × RStream) :=
  match sample oddReds 3 s with
  | .error e => .error e
  | .ok (os, s1) =>
    match sample evenReds 3 s1 with
    | .error e => .error e
    | .ok (es, s2) =>
      let v := randint 1 16 s2
      let c := pyChoice [v.1] v.2
      .ok (⟨sortAsc (os ++ es), c.1⟩, c.2)

/-- `RecommendEngine._odd_even_balance` of the source. -/
def odd_even_balance (rf bf : FreqTable) (count : Nat) (s : RStream) :
    Except GenErr (List Recommendation × RStream) :=
  genLoop oeOne count s

/-- The `while True:` rejection loop of `_sum_optimized`. -/
def soLoop : Nat → RStream → Except GenErr (List Nat × RStream)
  | 0, _ => .error .fuelOut
  | f + 1, s =>
    match sample allReds 6 s with
    | .error e => .error e
    | .ok (r, s1) =>
      let sel := sortAsc r
      if 80 ≤ sel.sum ∧ sel.sum ≤ 140 then .ok (sel, s1) else soLoop f s1

/-- One iteration of `_sum_optimized`. -/
def soOne (fuel : Nat) (s : RStream) : Except GenErr (Recommendation × RStream) :=
  match soLoop fuel s with
  | .error e => .error e
  | .ok (sel, s1) =>
    let b := randint 1 16 s1
    .ok (⟨sel, b.1⟩, b.2)

/-- `RecommendEngine._sum_optimized` of the source (the frequency tables are
accepted but unused, as in the source). -/
def sum_optimized (rf bf : FreqTable) (count fuel : Nat) (s : RStream) :
    Except GenErr (List Recommendation × RStream) :=
  genLoop (soOne fuel) count s

/-- The consecutive-pair check of `_no_consecutive`, over the sorted reds. -/
def hasConsec : List Nat → Bool
  | a :: b :: t => (b - a == 1) || hasConsec (b :: t)
  | _ => false

/-- The `while True:` rejection loop of `_no_consecutive`. -/
def ncLoop : Nat → RStream → Except GenErr (List Nat × RStream)
  | 0, _ => .error .fuelOut
  | f + 1, s =>
    match sample allReds 6 s with
    | .error e => .error e
    | .ok (r, s1) =>
      let sel := sortAsc r
      if hasConsec sel then ncLoop f s1 else .ok (sel, s1)

/-- One iteration of `_no_consecutive`. -/
def ncOne (fuel : Nat) (s : RStream) : Except GenErr (Recommendation × RStream) :=
  match ncLoop fuel s with
  | .error e => .error e
  | .ok (sel, s1) =>
    let b := randint 1 16 s1
    .ok (⟨sel, b.1⟩, b.2)

/-- `RecommendEngine._no_consecutive` of the source. -/
def no_consecutive (rf bf : FreqTable) (count fuel : Nat) (s : RStream) :
    Except GenErr (List Recommendation × RStream) :=
  genLoop (ncOne fuel) count s

/-- The weighted-frequency red selection as the spec's strategy table words
it: "sample without replacement, weight = freq(n)+uniform(0.1,1.0) jitter,
retry until 6 distinct obtained" — i.e. a weighted batch of six draws is
retried wholesale until it contains six distinct numbers, and every red
comes from a weighted draw.  This definition follows the spec's words, for
comparison with `fwOne`, which is translated from the source. -/
def fwSpecOne (rf bf : FreqTable) : Nat → RStream →
    Except GenErr (Recommendation × RStream)
  | 0, _ => .error .fuelOut
  | fuel + 1, s =>
    match choicesW allReds (redWeights rf s).1 6 (redWeights rf s).2 with
    | .error e => .error e
    | .ok (cs, s2) =>
      if cs.Nodup then
        match choicesW allBlues (blueWeights bf) 1 s2 with
        | .error e => .error e
        | .ok (bs, s3) => .ok (⟨sortAsc cs, bs.headD 0⟩, s3)
      else fwSpecOne rf bf fuel s2

/-- The weighted-frequency strategy as described by the spec's words
(see `fwSpecOne`). -/
def frequency_weighted_spec (rf bf : FreqTable) (count fuel : Nat)
    (s : RStream) : Except GenErr (List Recommendation × RStream) :=
  genLoop (fwSpecOne rf bf fuel) count s

/-- The top-up loop of the amended description of `_frequency_weighted`:
uniform draws from `[1, 33]`, rejecting numbers already selected, re-sorting
after each accepted candidate, until six distinct reds are held. -/
def fillUniform (fuel : Nat) (sel : List Nat) (s : RStream) :
    Except GenErr (List Nat × RStream) :=
  if 6 ≤ sel.length then .ok (sel, s)
  else
    match fuel with
    | 0 => .error .fuelOut
    | f + 1 =>
      let c := 1 + shead s % 33
      if c ∈ sel then fillUniform f sel (stail s)
      else fillUniform f (sortAsc ((sel ++ [c]).take 6)) (stail s)

/-- The weighted-frequency strategy as the amended claim describes it: one
weighted batch of six draws **with replacement** (weight `freq(n)` plus a
`uniform(0.1, 1.0)` jitter), deduplicated and sorted, then topped up to six
distinct values by **uniform** draws that reject already-selected numbers;
the blue ball is one draw weighted by blue frequency. -/
def fwAmendedOne (rf bf : FreqTable) (fuel : Nat) (s : RStream) :
    Except GenErr (Recommendation × RStream) :=
  match choicesW allReds (redWeights rf s).1 6 (redWeights rf s).2 with
  | .error e => .error e
  | .ok (cs, s2) =>
    match fillUniform fuel (sortAsc cs.dedup) s2 with
    | .error e => .error e
    | .ok (sel, s3) =>
      match choicesW allBlues (blueWeights bf) 1 s3 with
      | .error e => .error e
      | .ok (bs, s4) => .ok (⟨sel, bs.headD 0⟩, s4)

/-- The amended description of the whole weighted-frequency strategy. -/
def frequency_weighted_amended (rf bf : FreqTable) (count fuel : Nat)
    (s : RStream) : Except GenErr (List Recommendation × RStream) :=
  genLoop (fwAmendedOne rf bf fuel) count s

end RecommendEngine

/-- The `RecommendAlgorithm` enumeration of the source. -/
inductive RecommendAlgorithm where
  | frequency_weighted
  | pure_random
  | pure_frequency
  | hot_cold_balance
  | interval_distribution
  | odd_even_balance
  | sum_optimized
  | no_consecutive
deriving DecidableEq, Repr

/-- The argument of `RecommendEngine.generate`: either one of the eight
enumeration members, or any other Python value (the dispatch compares with
`==` and falls through to an `else` branch). -/
inductive AlgArg where
  | member (a : RecommendAlgorithm)
  | other (tag : Nat)
deriving DecidableEq, Repr

namespace RecommendEngine

/-- `RecommendEngine.generate` of the source: the `if/elif` dispatch over
the algorithm argument, defaulting to `_frequency_weighted`. -/
def generate (alg : AlgArg) (rf bf : FreqTable) (count fuel : Nat)
    (s : RStream) : Except GenErr (List Recommendation × RStream) :=
  match alg with
  | .member .frequency_weighted => frequency_weighted rf bf count fuel s
  | .member .pure_random => pure_random count s
  | .member .pure_frequency => (pure_frequency rf bf count).map (fun l => (l, s))
  | .member .hot_cold_balance => hot_cold_balance rf bf count s
  | .member .interval_distribution => interval_distribution rf bf count s
  | .member .odd_even_balance => odd_even_balance rf bf count s
  | .member .sum_optimized => sum_optimized rf bf count fuel s
  | .member .no_consecutive => no_consecutive rf bf count fuel s
  | .other _ => frequency_weighted rf bf count fuel s

end RecommendEngine

/-- Structural validity of one recommendation (spec §3): exactly six
distinct red values in `[1, 33]` listed in ascending order, and one blue
value in `[1, 16]`. -/
def ValidRec (r : Recommendation) : Prop :=
  r.red.length = 6 ∧ r.red.Sorted (· < ·) ∧
    (∀ x ∈ r.red, 1 ≤ x ∧ x ≤ 33) ∧ 1 ≤ r.blue ∧ r.blue ≤ 16

/-- Every key of the table lies in `[1, hi]`. -/
def KeysIn (t : FreqTable) (hi : Nat) : Prop := ∀ p ∈ t, 1 ≤ p.1 ∧ p.1 ≤ hi

/-- The keys of the table are pairwise distinct (true of every Python dict). -/
def KeysNodup (t : FreqTable) : Prop := (t.map Prod.fst).Nodup

/-- Conditions under which `_pure_frequency` yields structurally valid
recommendations: at least six red entries, distinct red keys in the red
domain, and blue keys in the blue domain. -/
def PureFreqOK (rf bf : FreqTable) : Prop :=
  6 ≤ rf.length ∧ KeysNodup rf ∧ KeysIn rf 33 ∧ KeysIn bf 16

/-- Conditions under which `_hot_cold_balance` yields structurally valid
recommendations: distinct red keys in the red domain, blue keys in the blue
domain, and no overlap between the ten-hottest and ten-coldest key lists
(the source samples three reds from each and concatenates them without any
duplicate check). -/
def HotColdOK (rf bf : FreqTable) : Prop :=
  KeysNodup rf ∧ KeysIn rf 33 ∧ KeysIn bf 16 ∧
    (RecommendEngine.hotKeys rf).Disjoint (RecommendEngine.coldKeys rf)

/-- Per-strategy side conditions of the amended claim C1: trivial for six of
the eight strategies, `PureFreqOK` for pure-frequency and `HotColdOK` for
hot-cold-balance. -/
def C1Hyp : AlgArg → FreqTable → FreqTable → Prop
  | .member .pure_frequency, rf, bf => PureFreqOK rf bf
  | .member .hot_cold_balance, rf, bf => HotColdOK rf bf
  | _, _, _ => True

/-- `sel` is a sub-collection of the table whose counts dominate all the
remaining entries (the "top" entries up to ties). -/
def DominatesRest (t : FreqTable) (sel : List (Nat × Nat)) : Prop :=
  ∃ rest, t.Perm (sel ++ rest) ∧ ∀ p ∈ sel, ∀ q ∈ rest, q.2 ≤ p.2

/-- `b` is a key of the table of maximal count. -/
def BlueIsMax (bf : FreqTable) (b : Nat) : Prop :=
  ∃ p ∈ bf, p.1 = b ∧ ∀ q ∈ bf, q.2 ≤ p.2

/-- One raw draw record as `parse_numbers` sees it.  The `red` field is
`none` when the `'red'` key is absent or its value is falsy, `some none`
when `[int(x) for x in item['red'].split(',')]` raises, and
`some (some nums)` when it decodes to the integer list `nums`; the `blue`
field likewise for `int(item['blue'])`. -/
structure RawRecord where
  red : Option (Option (List Int))
  blue : Option (Option Int)

/-- The red integers a record contributes: all decoded integers exactly when
the red field decodes to exactly six of them, nothing otherwise. -/
def redContrib (item : RawRecord) : List Int :=
  match item.red with
  | some (some nums) => if nums.length = 6 then nums else []
  | _ => []

/-- The blue integer a record contributes, when its blue field decodes. -/
def blueContrib (item : RawRecord) : List Int :=
  match item.blue with
  | some (some b) => [b]
  | _ => []

namespace SSQCore

/-- The record loop of `SSQCore.parse_numbers`, carrying the two
accumulating lists. -/
def parseAux : List RawRecord → List Int → List Int → List Int × List Int
  | [], reds, blues => (reds, blues)
  | item :: rest, reds, blues =>
    let reds' :=
      match item.red with
      | some (some nums) => if nums.length = 6 then reds ++ nums else reds
      | _ => reds
    let blues' :=
      match item.blue with
      | some (some b) => blues ++ [b]
      | _ => blues
    parseAux rest reds' blues'

/-- `SSQCore.parse_numbers` of the source: one pass over the records,
appending six decoded reds per well-formed red field and one decoded blue
per well-formed blue field, skipping failures silently and independently. -/
def parse_numbers (data : List RawRecord) : List Int × List Int :=
  parseAux data [] []

end SSQCore

/-- The `MessageType` enumeration of the source. -/
inductive MessageType where
  | fetch_success
  | fetch_error
  | recommend_success
  | error
  | progress_start
  | progress_stop
deriving DecidableEq, Repr

/-- The thread message queue of the source: a FIFO list of
`(message type, optional payload)` pairs. -/
structure MessageQueue where
  items : List (MessageType × Option String)
deriving DecidableEq, Repr

namespace MessageQueue

/-- `MessageQueue.send`: enqueue at the back; never blocks. -/
def send (q : MessageQueue) (m : MessageType) (d : Option String) :
    MessageQueue := ⟨q.items ++ [(m, d)]⟩

/-- `MessageQueue.receive`: non-blocking dequeue.  `none` stands for the
`(None, None)` pair returned on `queue.Empty`; otherwise the oldest pair is
returned and removed. -/
def receive (q : MessageQueue) :
    Option (MessageType × Option String) × MessageQueue :=
  match q.items with
  | [] => (none, q)
  | m :: rest => (some m, ⟨rest⟩)

/-- Enqueue a whole list of messages in order. -/
def sendAll (q : MessageQueue) (ms : List (MessageType × Option String)) :
    MessageQueue := ms.foldl (fun acc p => send acc p.1 p.2) q

end MessageQueue

/-- The all-zero random stream: every `random.sample` drawn from it picks
the first remaining candidates, so both rejection loops reject forever. -/
def czStream : RStream := fun _ => 0

/-- The identity stream used to witness the weighted strategy. -/
def idStream : RStream := fun n => n

/-- The constant-14 stream used to witness the sum-optimized strategy. -/
def teenStream : RStream := fun _ => 14

/-- The stride-3 stream used to witness the no-consecutive strategy. -/
def strideStream : RStream := fun n => n * 3

/-- A stream whose first weighted batch collides on the number 1, after
which the uniform top-up loop of the source finds 2, 3, 4, 5, 6, while the
spec-worded retry of the weighted batch keeps drawing 1s. -/
def collideStream : RStream := fun n =>
  if n = 39 then 1 else if n = 40 then 2 else if n = 41 then 3
  else if n = 42 then 4 else if n = 43 then 5 else 0

/-- A red table realising the spec's example: number 1 with count 10, all
other numbers with count 1, inserted in ascending order. -/
def exRedT : FreqTable := (1, 10) :: (List.range' 2 32).map (fun n => (n, 1))

/-- The blue table of the spec's example. -/
def exBlueT : FreqTable := [(1, 1)]

/-- A red table in which all seven entries are tied with count 1 but the
number 33 was inserted first: the stable descending sort keeps it among the
top six, refuting the ascending tie-break. -/
def tieRedT : FreqTable :=
  [(33, 1), (1, 1), (2, 1), (3, 1), (4, 1), (5, 1), (6, 1)]

/-- A red table holding the counts `(n, n)` for every red number: all counts
distinct, so the ten hottest and ten coldest keys are disjoint. -/
def fullRedT : FreqTable := (List.range' 1 33).map (fun n => (n, n))

/-! ## Basic facts about the embedded primitives -/

theorem sortAsc_perm (l : List Nat) : (sortAsc l).Perm l :=
  List.perm_insertionSort _ l

theorem mem_sortAsc {l : List Nat} {x : Nat} : x ∈ sortAsc l ↔ x ∈ l :=
  (sortAsc_perm l).mem_iff

theorem sortAsc_length (l : List Nat) : (sortAsc l).length = l.length :=
  (sortAsc_perm l).length_eq

theorem sortAsc_sorted_le (l : List Nat) : (sortAsc l).Sorted (· ≤ ·) :=
  List.sorted_insertionSort _ l

theorem sortAsc_nodup {l : List Nat} (h : l.Nodup) : (sortAsc l).Nodup :=
  ((sortAsc_perm l).nodup_iff).mpr h

theorem sortAsc_sorted_lt {l : List Nat} (h : l.Nodup) :
    (sortAsc l).Sorted (· < ·) := by
  have hs := sortAsc_sorted_le l
  have hn := sortAsc_nodup h
  exact (List.Pairwise.and hs hn).imp (fun hab => lt_of_le_of_ne hab.1 hab.2)

theorem sorted_lt_nodup {l : List Nat} (h : l.Sorted (· < ·)) : l.Nodup :=
  h.imp (fun hab => Nat.ne_of_lt hab)

theorem mem_allReds {x : Nat} : x ∈ allReds ↔ 1 ≤ x ∧ x ≤ 33 := by
  simp [allReds, List.mem_range'_1]
  omega

theorem mem_allBlues {x : Nat} : x ∈ allBlues ↔ 1 ≤ x ∧ x ≤ 16 := by
  simp [allBlues, List.mem_range'_1]
  omega

theorem randint_fst_mem {lo hi : Nat} (h : lo ≤ hi) (s : RStream) :
    lo ≤ (randint lo hi s).1 ∧ (randint lo hi s).1 ≤ hi := by
  unfold randint
  constructor
  · exact Nat.le_add_right lo _
  · have : shead s % (hi - lo + 1) ≤ hi - lo :=
      Nat.lt_succ_iff.mp (Nat.mod_lt _ (Nat.succ_pos _))
    omega

theorem pyChoice_fst_mem {l : List Nat} (h : l ≠ []) (s : RStream) :
    (pyChoice l s).1 ∈ l := by
  unfold pyChoice
  have hlen : 0 < l.length := List.length_pos.mpr h
  have hlt : shead s % l.length < l.length := Nat.mod_lt _ hlen
  rw [List.getD_eq_getElem l 0 hlt]
  exact List.getElem_mem hlt

theorem getD_not_mem_eraseIdx :
    ∀ (l : List Nat) (i : Nat), l.Nodup → i < l.length →
      l.getD i 0 ∉ l.eraseIdx i := by
  intro l
  induction l with
  | nil => intro i _ h; simp at h
  | cons a t ih =>
    intro i hnd hi
    cases i with
    | zero =>
      simpa using (List.nodup_cons.mp hnd).1
    | succ j =>
      have hj : j < t.length := by simpa using hi
      have hnd' := (List.nodup_cons.mp hnd).2
      have hna := (List.nodup_cons.mp hnd).1
      have hmem : t.getD j 0 ∈ t := by
        rw [List.getD_eq_getElem t 0 hj]; exact List.getElem_mem hj
      simp only [List.eraseIdx_cons_succ, List.getD_cons_succ, List.mem_cons]
      push_neg
      exact ⟨fun he => hna (he ▸ hmem), ih j hnd' hj⟩

theorem sampleAux_fst_length :
    ∀ (k : Nat) (pop : List Nat) (s : RStream), k ≤ pop.length →
      (sampleAux k pop s).1.length = k := by
  intro k
  induction k with
  | zero => intro pop s _; rfl
  | succ j ih =>
    intro pop s hk
    have hpos : 0 < pop.length := Nat.lt_of_lt_of_le (Nat.succ_pos j) hk
    have hi : shead s % pop.length < pop.length := Nat.mod_lt _ hpos
    have hlen : (pop.eraseIdx (shead s % pop.length)).length = pop.length - 1 := by
      rw [List.length_eraseIdx]; simp [hi]
    have hk' : j ≤ (pop.eraseIdx (shead s % pop.length)).length := by omega
    simp only [sampleAux]
    simpa using ih _ _ hk'

theorem sampleAux_fst_subset :
    ∀ (k : Nat) (pop : List Nat) (s : RStream), k ≤ pop.length →
      ∀ x ∈ (sampleAux k pop s).1, x ∈ pop := by
  intro k
  induction k with
  | zero => intro pop s _ x hx; simp [sampleAux] at hx
  | succ j ih =>
    intro pop s hk x hx
    have hpos : 0 < pop.length := Nat.lt_of_lt_of_le (Nat.succ_pos j) hk
    have hi : shead s % pop.length < pop.length := Nat.mod_lt _ hpos
    have hlen : (pop.eraseIdx (shead s % pop.length)).length = pop.length - 1 := by
      rw [List.length_eraseIdx]; simp [hi]
    have hk' : j ≤ (pop.eraseIdx (shead s % pop.length)).length := by omega
    simp only [sampleAux, List.mem_cons] at hx
    rcases hx with hx | hx
    · rw [hx, List.getD_eq_getElem pop 0 hi]; exact List.getElem_mem hi
    · exact (List.eraseIdx_sublist pop _).subset (ih _ _ hk' x hx)

theorem sampleAux_fst_nodup :
    ∀ (k : Nat) (pop : List Nat) (s : RStream), k ≤ pop.length → pop.Nodup →
      (sampleAux k pop s).1.Nodup := by
  intro k
  induction k with
  | zero => intro pop s _ _; simp [sampleAux]
  | succ j ih =>
    intro pop s hk hnd
    have hpos : 0 < pop.length := Nat.lt_of_lt_of_le (Nat.succ_pos j) hk
    have hi : shead s % pop.length < pop.length := Nat.mod_lt _ hpos
    have hlen : (pop.eraseIdx (shead s % pop.length)).length = pop.length - 1 := by
      rw [List.length_eraseIdx]; simp [hi]
    have hk' : j ≤ (pop.eraseIdx (shead s % pop.length)).length := by omega
    have hnd' : (pop.eraseIdx (shead s % pop.length)).Nodup :=
      (List.eraseIdx_sublist pop _).nodup hnd
    simp only [sampleAux, List.nodup_cons]
    refine ⟨fun hmem => ?_, ih _ _ hk' hnd'⟩
    exact getD_not_mem_eraseIdx pop _ hnd hi
      (sampleAux_fst_subset j _ _ hk' _ hmem)

theorem sample_ok {pop : List Nat} {k : Nat} {s : RStream}
    {res : List Nat} {s' : RStream}
    (h : sample pop k s = .ok (res, s')) :
    res.length = k ∧ (∀ x ∈ res, x ∈ pop) ∧ (pop.Nodup → res.Nodup) := by
  unfold sample at h
  split at h
  case isTrue hk =>
    injection h with h'
    have h1 : res = (sampleAux k pop s).1 := by
      have := congrArg Prod.fst h'.symm
      simpa using this
    subst h1
    exact ⟨sampleAux_fst_length k pop s hk, sampleAux_fst_subset k pop s hk,
      fun hnd => sampleAux_fst_nodup k pop s hk hnd⟩
  case isFalse => exact absurd h (by simp)

theorem choicesAux_fst_length (pop : List Nat) (w : List Nat) :
    ∀ (k : Nat) (s : RStream), (choicesAux pop w k s).1.length = k := by
  intro k
  induction k with
  | zero => intro s; rfl
  | succ j ih => intro s; simp only [choicesAux]; simpa using ih (stail s)

theorem choicesAux_fst_subset (pop : List Nat) (w : List Nat) (hp : pop ≠ []) :
    ∀ (k : Nat) (s : RStream), ∀ x ∈ (choicesAux pop w k s).1, x ∈ pop := by
  have hpos : 0 < pop.length := List.length_pos.mpr hp
  intro k
  induction k with
  | zero => intro s x hx; simp [choicesAux] at hx
  | succ j ih =>
    intro s x hx
    simp only [choicesAux, List.mem_cons] at hx
    rcases hx with hx | hx
    · have hilt : (if (posIdx pop w).isEmpty then 0
          else (posIdx pop w).getD (shead s % (posIdx pop w).length) 0) <
            pop.length := by
        split
        case isTrue => exact hpos
        case isFalse hne =>
          have hne' : posIdx pop w ≠ [] := by
            simpa [List.isEmpty_iff] using hne
          have hlt : shead s % (posIdx pop w).length < (posIdx pop w).length :=
            Nat.mod_lt _ (List.length_pos.mpr hne')
          have hmem : (posIdx pop w).getD (shead s % (posIdx pop w).length) 0
              ∈ posIdx pop w := by
            rw [List.getD_eq_getElem _ 0 hlt]; exact List.getElem_mem hlt
          unfold posIdx at hmem
          exact List.mem_range.mp (List.mem_filter.mp hmem).1
      rw [hx, List.getD_eq_getElem pop 0 hilt]
      exact List.getElem_mem hilt
    · exact ih (stail s) x hx

theorem choicesW_ok {pop : List Nat} {w : List Nat} {k : Nat} {s : RStream}
    {res : List Nat} {s' : RStream}
    (h : choicesW pop w k s = .ok (res, s')) :
    res.length = k ∧ ∀ x ∈ res, x ∈ pop := by
  unfold choicesW at h
  split at h
  · exact absurd h (by simp)
  case isFalse hne =>
    have hp : pop ≠ [] := by simpa [List.isEmpty_iff] using hne
    split at h
    · exact absurd h (by simp)
    split at h
    · exact absurd h (by simp)
    injection h with h'
    have h1 : res = (choicesAux pop w k s).1 := by
      have := congrArg Prod.fst h'.symm
      simpa using this
    subst h1
    exact ⟨choicesAux_fst_length pop w k s, choicesAux_fst_subset pop w hp k s⟩

theorem choicesW_ok_of_pos {pop : List Nat} {w : List Nat} (k : Nat) (s : RStream)
    (hp : pop ≠ []) (hl : w.length = pop.length) (hw : 0 < w.sum) :
    choicesW pop w k s = .ok (choicesAux pop w k s) := by
  unfold choicesW
  rw [if_neg (by simpa [List.isEmpty_iff] using hp), if_neg (not_not_intro hl),
    if_neg (not_le.mpr hw)]

theorem jitter_pos (v : Nat) : 0 < jitter v := by
  unfold jitter
  omega

theorem redWeights_fst_length (rf : FreqTable) (s : RStream) :
    (redWeights rf s).1.length = 33 := by
  simp [redWeights]

theorem redWeights_fst_pos (rf : FreqTable) (s : RStream) :
    ∀ q ∈ (redWeights rf s).1, 0 < q := by
  intro q hq
  simp only [redWeights, List.mem_map] at hq
  obtain ⟨i, _, rfl⟩ := hq
  have h2 := jitter_pos (s i)
  omega

theorem redWeights_choices_ok (rf : FreqTable) (s s2 : RStream) (k : Nat) :
    choicesW allReds (redWeights rf s).1 k s2 =
      .ok (choicesAux allReds (redWeights rf s).1 k s2) := by
  refine choicesW_ok_of_pos k s2 (by decide) ?_ ?_
  · rw [redWeights_fst_length]; rfl
  · refine List.sum_pos _ (redWeights_fst_pos rf s) ?_
    have := redWeights_fst_length rf s
    intro he
    rw [he] at this
    simp at this

theorem blueWeights_length (bf : FreqTable) : (blueWeights bf).length = 16 := by
  simp [blueWeights]

theorem blueWeights_empty : blueWeights [] = List.replicate 16 1 := by
  decide

theorem fillRed_stop {fuel : Nat} {sel : List Nat} {s : RStream}
    (h : 6 ≤ sel.length) : fillRed fuel sel s = .ok (sel, s) := by
  unfold fillRed
  rw [if_pos h]

theorem fillRed_succ {f : Nat} {sel : List Nat} {s : RStream}
    (h : ¬ 6 ≤ sel.length) :
    fillRed (f + 1) sel s =
      if 1 + shead s % 33 ∈ sel then fillRed f sel (stail s)
      else fillRed f (sortAsc ((sel ++ [1 + shead s % 33]).take 6)) (stail s) := by
  conv => left; unfold fillRed
  rw [if_neg h]

theorem fillRed_zero {sel : List Nat} {s : RStream}
    (h : ¬ 6 ≤ sel.length) : fillRed 0 sel s = .error .fuelOut := by
  unfold fillRed
  rw [if_neg h]

theorem fillRed_ok :
    ∀ (fuel : Nat) (sel : List Nat) (s : RStream) (res : List Nat) (s' : RStream),
      sel.length ≤ 6 → sel.Sorted (· < ·) → (∀ x ∈ sel, 1 ≤ x ∧ x ≤ 33) →
      fillRed fuel sel s = .ok (res, s') →
      res.length = 6 ∧ res.Sorted (· < ·) ∧ ∀ x ∈ res, 1 ≤ x ∧ x ≤ 33 := by
  intro fuel
  induction fuel with
  | zero =>
    intro sel s res s' hlen hsort hmem h
    by_cases h6 : 6 ≤ sel.length
    · rw [fillRed_stop h6] at h
      injection h with h'
      injection h' with h1 h2
      subst h1
      exact ⟨Nat.le_antisymm hlen h6, hsort, hmem⟩
    · rw [fillRed_zero h6] at h
      exact absurd h (by simp)
  | succ f ih =>
    intro sel s res s' hlen hsort hmem h
    by_cases h6 : 6 ≤ sel.length
    · rw [fillRed_stop h6] at h
      injection h with h'
      injection h' with h1 h2
      subst h1
      exact ⟨Nat.le_antisymm hlen h6, hsort, hmem⟩
    · rw [fillRed_succ h6] at h
      by_cases hc : 1 + shead s % 33 ∈ sel
      · rw [if_pos hc] at h
        exact ih sel (stail s) res s' hlen hsort hmem h
      · rw [if_neg hc] at h
        have hcb : 1 ≤ 1 + shead s % 33 ∧ 1 + shead s % 33 ≤ 33 := by
          have : shead s % 33 < 33 := Nat.mod_lt _ (by omega)
          omega
        have hnd : (sel ++ [1 + shead s % 33]).Nodup := by
          refine (List.nodup_append).mpr
            ⟨sorted_lt_nodup hsort, List.nodup_singleton _, ?_⟩
          intro x hx hx'
          rw [List.mem_singleton] at hx'
          exact hc (hx' ▸ hx)
        have hndt : ((sel ++ [1 + shead s % 33]).take 6).Nodup :=
          (List.take_sublist 6 _).nodup hnd
        have hlen' : (sortAsc ((sel ++ [1 + shead s % 33]).take 6)).length ≤ 6 := by
          rw [sortAsc_length, List.length_take]
          omega
        have hsort' : (sortAsc ((sel ++ [1 + shead s % 33]).take 6)).Sorted (· < ·) :=
          sortAsc_sorted_lt hndt
        have hmem' : ∀ x ∈ sortAsc ((sel ++ [1 + shead s % 33]).take 6),
            1 ≤ x ∧ x ≤ 33 := by
          intro x hx
          have hx' : x ∈ sel ++ [1 + shead s % 33] :=
            (List.take_sublist 6 _).subset (mem_sortAsc.mp hx)
          rcases List.mem_append.mp hx' with hx' | hx'
          · exact hmem x hx'
          · rw [List.mem_singleton] at hx'
            exact hx' ▸ hcb
        exact ih _ (stail s) res s' hlen' hsort' hmem' h

theorem genLoop_succ_eq (one : RStream → Except GenErr (Recommendation × RStream))
    (m : Nat) (s : RStream) :
    genLoop one (m + 1) s =
      match one s with
      | .error e => .error e
      | .ok (r, s1) =>
        match genLoop one m s1 with
        | .error e => .error e
        | .ok (rs, s2) => .ok (r :: rs, s2) := rfl

theorem genLoop_ok_forall {one : RStream → Except GenErr (Recommendation × RStream)}
    {P : Recommendation → Prop}
    (hone : ∀ s r s', one s = .ok (r, s') → P r) :
    ∀ (n : Nat) (s : RStream) (rs : List Recommendation) (s' : RStream),
      genLoop one n s = .ok (rs, s') → ∀ r ∈ rs, P r := by
  intro n
  induction n with
  | zero =>
    intro s rs s' h r hr
    unfold genLoop at h
    injection h with h'
    injection h' with h1 h2
    subst h1
    simp at hr
  | succ m ih =>
    intro s rs s' h r hr
    rw [genLoop_succ_eq] at h
    cases hone' : one s with
    | error e => rw [hone'] at h; exact absurd h (by simp)
    | ok p =>
      obtain ⟨r1, s1⟩ := p
      rw [hone'] at h
      simp only at h
      cases hrec : genLoop one m s1 with
      | error e => rw [hrec] at h; exact absurd h (by simp)
      | ok q =>
        obtain ⟨rs2, s2⟩ := q
        rw [hrec] at h
        simp only at h
        injection h with h'
        injection h' with h1 h2
        subst h1
        rcases List.mem_cons.mp hr with hr | hr
        · exact hr ▸ hone s r1 s1 hone'
        · exact ih s1 rs2 s2 hrec r hr

theorem genLoop_error {one : RStream → Except GenErr (Recommendation × RStream)} :
    ∀ (n : Nat) (s : RStream) (e : GenErr),
      genLoop one n s = .error e → ∃ s0, one s0 = .error e := by
  intro n
  induction n with
  | zero => intro s e h; unfold genLoop at h; exact absurd h (by simp)
  | succ m ih =>
    intro s e h
    rw [genLoop_succ_eq] at h
    cases hone : one s with
    | error e' =>
      rw [hone] at h
      simp only at h
      injection h with h'
      exact ⟨s, h' ▸ hone⟩
    | ok p =>
      obtain ⟨r1, s1⟩ := p
      rw [hone] at h
      simp only at h
      cases hrec : genLoop one m s1 with
      | error e' =>
        rw [hrec] at h
        simp only at h
        injection h with h'
        exact ih s1 e (h' ▸ hrec)
      | ok q =>
        obtain ⟨rs2, s2⟩ := q
        rw [hrec] at h
        simp only at h
        exact absurd h (by simp)

/-! ## Structural validity of each strategy's output -/

theorem allReds_nodup : allReds.Nodup := by decide

theorem allBlues_nodup : allBlues.Nodup := by decide

theorem sample_allReds_eq (s : RStream) :
    sample allReds 6 s = .ok (sampleAux 6 allReds s) := by
  unfold sample
  rw [if_pos (by decide)]

theorem prOne_ok_valid {s : RStream} {r : Recommendation} {s' : RStream}
    (h : RecommendEngine.prOne s = .ok (r, s')) : ValidRec r := by
  unfold RecommendEngine.prOne at h
  rcases hp : sample allReds 6 s with e | p
  · rw [hp] at h; exact absurd h (by simp)
  · obtain ⟨res, s1⟩ := p
    rw [hp] at h
    simp only at h
    injection h with h'
    injection h' with h1 h2
    subst h1
    obtain ⟨hlen, hsub, hnd⟩ := sample_ok hp
    have hb := randint_fst_mem (by omega : 1 ≤ 16) s1
    refine ⟨by rw [sortAsc_length, hlen], sortAsc_sorted_lt (hnd allReds_nodup),
      ?_, hb.1, hb.2⟩
    intro x hx
    exact mem_allReds.mp (hsub x (mem_sortAsc.mp hx))

theorem soLoop_ok :
    ∀ (fuel : Nat) (s : RStream) (sel : List Nat) (s' : RStream),
      RecommendEngine.soLoop fuel s = .ok (sel, s') →
      sel.length = 6 ∧ sel.Sorted (· < ·) ∧ (∀ x ∈ sel, 1 ≤ x ∧ x ≤ 33) ∧
        80 ≤ sel.sum ∧ sel.sum ≤ 140 := by
  intro fuel
  induction fuel with
  | zero =>
    intro s sel s' h
    exact absurd h (by simp [RecommendEngine.soLoop])
  | succ f ih =>
    intro s sel s' h
    unfold RecommendEngine.soLoop at h
    rcases hp : sample allReds 6 s with e | p
    · rw [hp] at h; exact absurd h (by simp)
    · obtain ⟨res, s1⟩ := p
      rw [hp] at h
      simp only at h
      by_cases hacc : 80 ≤ (sortAsc res).sum ∧ (sortAsc res).sum ≤ 140
      · rw [if_pos hacc] at h
        injection h with h'
        injection h' with h1 h2
        subst h1
        obtain ⟨hlen, hsub, hnd⟩ := sample_ok hp
        refine ⟨by rw [sortAsc_length, hlen],
          sortAsc_sorted_lt (hnd allReds_nodup), ?_, hacc.1, hacc.2⟩
        intro x hx
        exact mem_allReds.mp (hsub x (mem_sortAsc.mp hx))
      · rw [if_neg hacc] at h
        exact ih s1 sel s' h

theorem soOne_ok_valid {fuel : Nat} {s : RStream} {r : Recommendation}
    {s' : RStream} (h : RecommendEngine.soOne fuel s = .ok (r, s')) :
    ValidRec r ∧ 80 ≤ r.red.sum ∧ r.red.sum ≤ 140 := by
  unfold RecommendEngine.soOne at h
  rcases hp : RecommendEngine.soLoop fuel s with e | p
  · rw [hp] at h; exact absurd h (by simp)
  · obtain ⟨sel, s1⟩ := p
    rw [hp] at h
    simp only at h
    injection h with h'
    injection h' with h1 h2
    subst h1
    obtain ⟨hlen, hsort, hmem, hlo, hhi⟩ := soLoop_ok fuel s sel s1 hp
    have hb := randint_fst_mem (by omega : 1 ≤ 16) s1
    exact ⟨⟨hlen, hsort, hmem, hb.1, hb.2⟩, hlo, hhi⟩

theorem ncLoop_ok :
    ∀ (fuel : Nat) (s : RStream) (sel : List Nat) (s' : RStream),
      RecommendEngine.ncLoop fuel s = .ok (sel, s') →
      sel.length = 6 ∧ sel.Sorted (· < ·) ∧ (∀ x ∈ sel, 1 ≤ x ∧ x ≤ 33) ∧
        RecommendEngine.hasConsec sel = false := by
  intro fuel
  induction fuel with
  | zero =>
    intro s sel s' h
    exact absurd h (by simp [RecommendEngine.ncLoop])
  | succ f ih =>
    intro s sel s' h
    unfold RecommendEngine.ncLoop at h
    rcases hp : sample allReds 6 s with e | p
    · rw [hp] at h; exact absurd h (by simp)
    · obtain ⟨res, s1⟩ := p
      rw [hp] at h
      simp only at h
      by_cases hacc : RecommendEngine.hasConsec (sortAsc res) = true
      · rw [if_pos hacc] at h
        exact ih s1 sel s' h
      · rw [if_neg hacc] at h
        injection h with h'
        injection h' with h1 h2
        subst h1
        obtain ⟨hlen, hsub, hnd⟩ := sample_ok hp
        refine ⟨by rw [sortAsc_length, hlen],
          sortAsc_sorted_lt (hnd allReds_nodup), ?_,
          Bool.not_eq_true _ ▸ hacc⟩
        intro x hx
        exact mem_allReds.mp (hsub x (mem_sortAsc.mp hx))

theorem ncOne_ok_valid {fuel : Nat} {s : RStream} {r : Recommendation}
    {s' : RStream} (h : RecommendEngine.ncOne fuel s = .ok (r, s')) :
    ValidRec r ∧ RecommendEngine.hasConsec r.red = false := by
  unfold RecommendEngine.ncOne at h
  rcases hp : RecommendEngine.ncLoop fuel s with e | p
  · rw [hp] at h; exact absurd h (by simp)
  · obtain ⟨sel, s1⟩ := p
    rw [hp] at h
    simp only at h
    injection h with h'
    injection h' with h1 h2
    subst h1
    obtain ⟨hlen, hsort, hmem, hnc⟩ := ncLoop_ok fuel s sel s1 hp
    have hb := randint_fst_mem (by omega : 1 ≤ 16) s1
    exact ⟨⟨hlen, hsort, hmem, hb.1, hb.2⟩, hnc⟩

theorem mem_interval1 {x : Nat} (h : x ∈ List.range' 1 11) : 1 ≤ x ∧ x ≤ 11 := by
  rw [List.mem_range'_1] at h
  omega

theorem mem_interval2 {x : Nat} (h : x ∈ List.range' 12 11) : 12 ≤ x ∧ x ≤ 22 := by
  rw [List.mem_range'_1] at h
  omega

theorem mem_interval3 {x : Nat} (h : x ∈ List.range' 23 11) : 23 ≤ x ∧ x ≤ 33 := by
  rw [List.mem_range'_1] at h
  omega

theorem idOne_ok_valid {s : RStream} {r : Recommendation} {s' : RStream}
    (h : RecommendEngine.idOne s = .ok (r, s')) : ValidRec r := by
  unfold RecommendEngine.idOne at h
  rcases hp1 : sample (List.range' 1 11) 2 s with e | p1
  · rw [hp1] at h; exact absurd h (by simp)
  obtain ⟨i1, s1⟩ := p1
  rw [hp1] at h
  simp only at h
  rcases hp2 : sample (List.range' 12 11) 2 s1 with e | p2
  · rw [hp2] at h; exact absurd h (by simp)
  obtain ⟨i2, s2⟩ := p2
  rw [hp2] at h
  simp only at h
  rcases hp3 : sample (List.range' 23 11) 2 s2 with e | p3
  · rw [hp3] at h; exact absurd h (by simp)
  obtain ⟨i3, s3⟩ := p3
  rw [hp3] at h
  simp only at h
  injection h with h'
  injection h' with h1 h2
  subst h1
  obtain ⟨hl1, hs1, hn1⟩ := sample_ok hp1
  obtain ⟨hl2, hs2, hn2⟩ := sample_ok hp2
  obtain ⟨hl3, hs3, hn3⟩ := sample_ok hp3
  have hd23 : i2.Disjoint i3 := by
    intro a ha ha'
    have h2 := mem_interval2 (hs2 a ha)
    have h3 := mem_interval3 (hs3 a ha')
    omega
  have hd123 : i1.Disjoint (i2 ++ i3) := by
    intro a ha ha'
    have h1b := mem_interval1 (hs1 a ha)
    rcases List.mem_append.mp ha' with hb | hb
    · have := mem_interval2 (hs2 a hb)
      omega
    · have := mem_interval3 (hs3 a hb)
      omega
  have hnd : (i1 ++ i2 ++ i3).Nodup := by
    rw [List.append_assoc]
    refine List.nodup_append.mpr ⟨hn1 (by decide), ?_, hd123⟩
    exact List.nodup_append.mpr ⟨hn2 (by decide), hn3 (by decide), hd23⟩
  have hmemred : ∀ x ∈ sortAsc (i1 ++ i2 ++ i3), 1 ≤ x ∧ x ≤ 33 := by
    intro x hx
    have hx' := mem_sortAsc.mp hx
    rw [List.append_assoc] at hx'
    rcases List.mem_append.mp hx' with hx' | hx'
    · have := mem_interval1 (hs1 x hx')
      omega
    · rcases List.mem_append.mp hx' with hx' | hx'
      · have := mem_interval2 (hs2 x hx')
        omega
      · have := mem_interval3 (hs3 x hx')
        omega
  have ha := randint_fst_mem (by omega : 1 ≤ 8) s3
  have hb := randint_fst_mem (by omega : 9 ≤ 16) (randint 1 8 s3).2
  have hcm := pyChoice_fst_mem (l := [(randint 1 8 s3).1,
    (randint 9 16 (randint 1 8 s3).2).1]) (by simp)
    (randint 9 16 (randint 1 8 s3).2).2
  refine ⟨?_, sortAsc_sorted_lt hnd, hmemred, ?_, ?_⟩
  · rw [sortAsc_length]
    simp [List.length_append, hl1, hl2, hl3]
  · dsimp only
    rcases List.mem_cons.mp hcm with hcm | hcm
    · omega
    · rcases List.mem_cons.mp hcm with hcm | hcm
      · omega
      · simp at hcm
  · dsimp only
    rcases List.mem_cons.mp hcm with hcm | hcm
    · omega
    · rcases List.mem_cons.mp hcm with hcm | hcm
      · omega
      · simp at hcm

theorem mem_oddReds {x : Nat} (h : x ∈ RecommendEngine.oddReds) :
    1 ≤ x ∧ x ≤ 33 ∧ x % 2 = 1 := by
  unfold RecommendEngine.oddReds at h
  have h' := List.mem_filter.mp h
  have hb := h'.2
  rw [List.mem_range'_1] at h'
  simp at hb
  omega

theorem mem_evenReds {x : Nat} (h : x ∈ RecommendEngine.evenReds) :
    1 ≤ x ∧ x ≤ 33 ∧ x % 2 = 0 := by
  unfold RecommendEngine.evenReds at h
  have h' := List.mem_filter.mp h
  have hb := h'.2
  rw [List.mem_range'_1] at h'
  simp at hb
  omega

theorem oeOne_ok_valid {s : RStream} {r : Recommendation} {s' : RStream}
    (h : RecommendEngine.oeOne s = .ok (r, s')) : ValidRec r := by
  unfold RecommendEngine.oeOne at h
  rcases hp1 : sample RecommendEngine.oddReds 3 s with e | p1
  · rw [hp1] at h; exact absurd h (by simp)
  obtain ⟨os, s1⟩ := p1
  rw [hp1] at h
  simp only at h
  rcases hp2 : sample RecommendEngine.evenReds 3 s1 with e | p2
  · rw [hp2] at h; exact absurd h (by simp)
  obtain ⟨es, s2⟩ := p2
  rw [hp2] at h
  simp only at h
  injection h with h'
  injection h' with h1 h2
  subst h1
  obtain ⟨hl1, hs1, hn1⟩ := sample_ok hp1
  obtain ⟨hl2, hs2, hn2⟩ := sample_ok hp2
  have hd : os.Disjoint es := by
    intro a ha ha'
    have ho := mem_oddReds (hs1 a ha)
    have he := mem_evenReds (hs2 a ha')
    omega
  have hnd : (os ++ es).Nodup :=
    List.nodup_append.mpr ⟨hn1 (by decide), hn2 (by decide), hd⟩
  have hv := randint_fst_mem (by omega : 1 ≤ 16) s2
  have hcm := pyChoice_fst_mem (l := [(randint 1 16 s2).1]) (by simp)
    (randint 1 16 s2).2
  refine ⟨?_, sortAsc_sorted_lt hnd, ?_, ?_, ?_⟩
  · rw [sortAsc_length]
    simp [List.length_append, hl1, hl2]
  · intro x hx
    rcases List.mem_append.mp (mem_sortAsc.mp hx) with hx' | hx'
    · have := mem_oddReds (hs1 x hx')
      omega
    · have := mem_evenReds (hs2 x hx')
      omega
  · dsimp only
    rcases List.mem_cons.mp hcm with hcm | hcm
    · omega
    · simp at hcm
  · dsimp only
    rcases List.mem_cons.mp hcm with hcm | hcm
    · omega
    · simp at hcm

theorem fwOne_ok_valid {rf bf : FreqTable} {fuel : Nat} {s : RStream}
    {r : Recommendation} {s' : RStream}
    (h : RecommendEngine.fwOne rf bf fuel s = .ok (r, s')) : ValidRec r := by
  unfold RecommendEngine.fwOne at h
  rw [redWeights_choices_ok rf s] at h
  rcases hq : choicesAux allReds (redWeights rf s).1 6 (redWeights rf s).2
    with ⟨cs, s2⟩
  rw [hq] at h
  simp only at h
  have hck : choicesW allReds (redWeights rf s).1 6 (redWeights rf s).2 =
      .ok (cs, s2) := by rw [redWeights_choices_ok rf s, hq]
  obtain ⟨hlen6, hsub⟩ := choicesW_ok hck
  rcases hf : fillRed fuel (sortAsc cs.dedup) s2 with e | pf
  · rw [hf] at h; exact absurd h (by simp)
  obtain ⟨sel, s3⟩ := pf
  rw [hf] at h
  simp only at h
  have hini1 : (sortAsc cs.dedup).length ≤ 6 := by
    rw [sortAsc_length]
    calc cs.dedup.length ≤ cs.length := (List.dedup_sublist cs).length_le
    _ = 6 := hlen6
  have hini2 : (sortAsc cs.dedup).Sorted (· < ·) :=
    sortAsc_sorted_lt (List.nodup_dedup cs)
  have hini3 : ∀ x ∈ sortAsc cs.dedup, 1 ≤ x ∧ x ≤ 33 := by
    intro x hx
    exact mem_allReds.mp (hsub x (List.mem_dedup.mp (mem_sortAsc.mp hx)))
  obtain ⟨hrl, hrs, hrm⟩ := fillRed_ok fuel _ s2 sel s3 hini1 hini2 hini3 hf
  rcases hb : choicesW allBlues (blueWeights bf) 1 s3 with e | pb
  · rw [hb] at h; exact absurd h (by simp)
  obtain ⟨bs, s4⟩ := pb
  rw [hb] at h
  simp only at h
  injection h with h'
  injection h' with h1 h2
  subst h1
  obtain ⟨hbl, hbsub⟩ := choicesW_ok hb
  have hbs : ∃ b, bs = [b] := by
    cases bs with
    | nil => simp at hbl
    | cons b t =>
      cases t with
      | nil => exact ⟨b, rfl⟩
      | cons c t' => simp at hbl
  obtain ⟨b, rfl⟩ := hbs
  have hbm := mem_allBlues.mp (hbsub b (by simp))
  exact ⟨hrl, hrs, hrm, hbm.1, hbm.2⟩

theorem sortByCountDesc_perm (t : FreqTable) : (sortByCountDesc t).Perm t :=
  List.perm_insertionSort _ t

theorem sortByCountAsc_perm (t : FreqTable) : (sortByCountAsc t).Perm t :=
  List.perm_insertionSort _ t

theorem sortByCountDesc_pairwise (t : FreqTable) :
    (sortByCountDesc t).Pairwise cntGe :=
  List.sorted_insertionSort cntGe t

theorem sortByCountAsc_pairwise (t : FreqTable) :
    (sortByCountAsc t).Pairwise cntLe :=
  List.sorted_insertionSort cntLe t

theorem hotKeys_mem {rf : FreqTable} {x : Nat}
    (h : x ∈ RecommendEngine.hotKeys rf) : ∃ p ∈ rf, p.1 = x := by
  unfold RecommendEngine.hotKeys at h
  obtain ⟨p, hp, rfl⟩ := List.mem_map.mp h
  exact ⟨p, (sortByCountDesc_perm rf).subset ((List.take_sublist 10 _).subset hp),
    rfl⟩

theorem coldKeys_mem {rf : FreqTable} {x : Nat}
    (h : x ∈ RecommendEngine.coldKeys rf) : ∃ p ∈ rf, p.1 = x := by
  unfold RecommendEngine.coldKeys at h
  obtain ⟨p, hp, rfl⟩ := List.mem_map.mp h
  exact ⟨p, (sortByCountAsc_perm rf).subset ((List.take_sublist 10 _).subset hp),
    rfl⟩

theorem hotKeys_nodup {rf : FreqTable} (h : KeysNodup rf) :
    (RecommendEngine.hotKeys rf).Nodup := by
  have hperm : ((sortByCountDesc rf).map Prod.fst).Nodup :=
    (((sortByCountDesc_perm rf).map Prod.fst).nodup_iff).mpr h
  exact (((List.take_sublist 10 _).map Prod.fst).nodup) hperm

theorem coldKeys_nodup {rf : FreqTable} (h : KeysNodup rf) :
    (RecommendEngine.coldKeys rf).Nodup := by
  have hperm : ((sortByCountAsc rf).map Prod.fst).Nodup :=
    (((sortByCountAsc_perm rf).map Prod.fst).nodup_iff).mpr h
  exact (((List.take_sublist 10 _).map Prod.fst).nodup) hperm

theorem hcOne_ok_valid {rf bf : FreqTable} {s : RStream}
    {r : Recommendation} {s' : RStream} (hok : HotColdOK rf bf)
    (h : RecommendEngine.hcOne rf bf s = .ok (r, s')) : ValidRec r := by
  obtain ⟨hknd, hkin, hbin, hdisj⟩ := hok
  unfold RecommendEngine.hcOne at h
  rcases hp1 : sample (RecommendEngine.hotKeys rf) 3 s with e | p1
  · rw [hp1] at h; exact absurd h (by simp)
  obtain ⟨hs, s1⟩ := p1
  rw [hp1] at h
  simp only at h
  rcases hp2 : sample (RecommendEngine.coldKeys rf) 3 s1 with e | p2
  · rw [hp2] at h; exact absurd h (by simp)
  obtain ⟨cs, s2⟩ := p2
  rw [hp2] at h
  simp only at h
  cases hbd : sortByCountDesc bf with
  | nil => rw [hbd] at h; exact absurd h (by simp)
  | cons hp tl =>
    rw [hbd] at h
    simp only at h
    cases hba : sortByCountAsc bf with
    | nil => rw [hba] at h; exact absurd h (by simp)
    | cons cp tl' =>
      rw [hba] at h
      simp only at h
      injection h with h'
      injection h' with h1 h2
      subst h1
      obtain ⟨hl1, hs1, hn1⟩ := sample_ok hp1
      obtain ⟨hl2, hs2, hn2⟩ := sample_ok hp2
      have hd : hs.Disjoint cs := fun a ha ha' =>
        hdisj (hs1 a ha) (hs2 a ha')
      have hnd : (hs ++ cs).Nodup :=
        List.nodup_append.mpr ⟨hn1 (hotKeys_nodup hknd),
          hn2 (coldKeys_nodup hknd), hd⟩
      have hpm : hp ∈ bf :=
        (sortByCountDesc_perm bf).subset (hbd ▸ List.mem_cons_self hp tl)
      have hcm : cp ∈ bf :=
        (sortByCountAsc_perm bf).subset (hba ▸ List.mem_cons_self cp tl')
      have hbc := pyChoice_fst_mem (l := [hp.1, cp.1]) (by simp) s2
      refine ⟨?_, sortAsc_sorted_lt hnd, ?_, ?_, ?_⟩
      · rw [sortAsc_length]
        simp [List.length_append, hl1, hl2]
      · intro x hx
        rcases List.mem_append.mp (mem_sortAsc.mp hx) with hx' | hx'
        · obtain ⟨p, hpf, rfl⟩ := hotKeys_mem (hs1 x hx')
          exact hkin p hpf
        · obtain ⟨p, hpf, rfl⟩ := coldKeys_mem (hs2 x hx')
          exact hkin p hpf
      · dsimp only
        rcases List.mem_cons.mp hbc with hb | hb
        · rw [hb]
          exact (hbin hp hpm).1
        · rcases List.mem_cons.mp hb with hb | hb
          · rw [hb]
            exact (hbin cp hcm).1
          · simp at hb
      · dsimp only
        rcases List.mem_cons.mp hbc with hb | hb
        · rw [hb]
          exact (hbin hp hpm).2
        · rcases List.mem_cons.mp hb with hb | hb
          · rw [hb]
            exact (hbin cp hcm).2
          · simp at hb

theorem topSixKeys_props {rf : FreqTable} (h6 : 6 ≤ rf.length)
    (hnd : KeysNodup rf) (hin : KeysIn rf 33) :
    (RecommendEngine.topSixKeys rf).length = 6 ∧
      (RecommendEngine.topSixKeys rf).Nodup ∧
      ∀ x ∈ RecommendEngine.topSixKeys rf, 1 ≤ x ∧ x ≤ 33 := by
  unfold RecommendEngine.topSixKeys
  refine ⟨?_, ?_, ?_⟩
  · rw [List.length_map, List.length_take, (sortByCountDesc_perm rf).length_eq]
    omega
  · have hperm : ((sortByCountDesc rf).map Prod.fst).Nodup :=
      (((sortByCountDesc_perm rf).map Prod.fst).nodup_iff).mpr hnd
    exact (((List.take_sublist 6 _).map Prod.fst).nodup) hperm
  · intro x hx
    obtain ⟨p, hp, rfl⟩ := List.mem_map.mp hx
    exact hin p ((sortByCountDesc_perm rf).subset ((List.take_sublist 6 _).subset hp))

theorem pure_frequency_ok {rf bf : FreqTable} {count : Nat}
    {recs : List Recommendation}
    (h : RecommendEngine.pure_frequency rf bf count = .ok recs) :
    ∃ p tl, sortByCountDesc bf = p :: tl ∧
      recs = List.replicate count
        ⟨sortAsc (RecommendEngine.topSixKeys rf), p.1⟩ := by
  unfold RecommendEngine.pure_frequency at h
  cases hbd : sortByCountDesc bf with
  | nil => rw [hbd] at h; exact absurd h (by simp)
  | cons p tl =>
    rw [hbd] at h
    simp only at h
    injection h with h'
    exact ⟨p, tl, rfl, h'.symm⟩

theorem head_desc_max {bf : FreqTable} {p : Nat × Nat} {tl : List (Nat × Nat)}
    (h : sortByCountDesc bf = p :: tl) : BlueIsMax bf p.1 := by
  refine ⟨p, (sortByCountDesc_perm bf).subset (h ▸ List.mem_cons_self p tl),
    rfl, ?_⟩
  intro q hq
  have hq' : q ∈ p :: tl := h ▸ (sortByCountDesc_perm bf).symm.subset hq
  rcases List.mem_cons.mp hq' with hq' | hq'
  · rw [hq']
  · have hpw := sortByCountDesc_pairwise bf
    rw [h] at hpw
    exact List.rel_of_pairwise_cons hpw hq'

theorem pure_frequency_valid {rf bf : FreqTable} {count : Nat}
    {recs : List Recommendation} (hok : PureFreqOK rf bf)
    (h : RecommendEngine.pure_frequency rf bf count = .ok recs) :
    ∀ r ∈ recs, ValidRec r := by
  obtain ⟨h6, hnd, hin, hbin⟩ := hok
  obtain ⟨p, tl, hbd, hrecs⟩ := pure_frequency_ok h
  obtain ⟨htl, htnd, htin⟩ := topSixKeys_props h6 hnd hin
  intro r hr
  rw [hrecs] at hr
  have hreq := List.eq_of_mem_replicate hr
  subst hreq
  obtain ⟨pm, hpm, hpeq, _⟩ := head_desc_max hbd
  refine ⟨by rw [sortAsc_length, htl], sortAsc_sorted_lt htnd, ?_, ?_, ?_⟩
  · intro x hx
    exact htin x (mem_sortAsc.mp hx)
  · dsimp only
    rw [← hpeq]
    exact (hbin pm hpm).1
  · dsimp only
    rw [← hpeq]
    exact (hbin pm hpm).2

/-! ## Error behaviour and further characterisations -/

theorem fillRed_error :
    ∀ (fuel : Nat) (sel : List Nat) (s : RStream) (e : GenErr),
      fillRed fuel sel s = .error e → e = .fuelOut := by
  intro fuel
  induction fuel with
  | zero =>
    intro sel s e h
    by_cases h6 : 6 ≤ sel.length
    · rw [fillRed_stop h6] at h; exact absurd h (by simp)
    · rw [fillRed_zero h6] at h
      injection h with h'
      exact h'.symm
  | succ f ih =>
    intro sel s e h
    by_cases h6 : 6 ≤ sel.length
    · rw [fillRed_stop h6] at h; exact absurd h (by simp)
    · rw [fillRed_succ h6] at h
      by_cases hc : 1 + shead s % 33 ∈ sel
      · rw [if_pos hc] at h; exact ih _ _ _ h
      · rw [if_neg hc] at h; exact ih _ _ _ h

theorem blueWeights_empty_sum_pos : 0 < (blueWeights []).sum := by
  decide

theorem choicesW_blue_empty_ok (k : Nat) (s : RStream) :
    choicesW allBlues (blueWeights []) 1 s =
      .ok (choicesAux allBlues (blueWeights []) 1 s) := by
  refine choicesW_ok_of_pos 1 s (by decide) ?_ blueWeights_empty_sum_pos
  rw [blueWeights_length]
  rfl

theorem fwOne_empty_err {fuel : Nat} {s : RStream} {e : GenErr}
    (h : RecommendEngine.fwOne [] [] fuel s = .error e) : e = .fuelOut := by
  unfold RecommendEngine.fwOne at h
  rw [redWeights_choices_ok] at h
  rcases hq : choicesAux allReds (redWeights [] s).1 6 (redWeights [] s).2
    with ⟨cs, s2⟩
  rw [hq] at h
  simp only at h
  rcases hf : fillRed fuel (sortAsc cs.dedup) s2 with e' | pf
  · rw [hf] at h
    simp only at h
    injection h with h'
    exact h' ▸ fillRed_error fuel _ s2 e' hf
  · obtain ⟨sel, s3⟩ := pf
    rw [hf] at h
    simp only at h
    rw [choicesW_blue_empty_ok 1 s3] at h
    rcases hb : choicesAux allBlues (blueWeights []) 1 s3 with ⟨bs, s4⟩
    rw [hb] at h
    simp only at h
    exact absurd h (by simp)

theorem map_fst_ok {X : Except GenErr (List Recommendation × RStream)}
    {recs : List Recommendation} (h : X.map Prod.fst = .ok recs) :
    ∃ s', X = .ok (recs, s') := by
  cases hx : X with
  | error e => rw [hx] at h; simp [Except.map] at h
  | ok p =>
    obtain ⟨l, s'⟩ := p
    rw [hx] at h
    simp [Except.map] at h
    exact ⟨s', by rw [h]⟩

theorem fillUniform_stop {fuel : Nat} {sel : List Nat} {s : RStream}
    (h : 6 ≤ sel.length) :
    RecommendEngine.fillUniform fuel sel s = .ok (sel, s) := by
  unfold RecommendEngine.fillUniform
  rw [if_pos h]

theorem fillUniform_succ {f : Nat} {sel : List Nat} {s : RStream}
    (h : ¬ 6 ≤ sel.length) :
    RecommendEngine.fillUniform (f + 1) sel s =
      if 1 + shead s % 33 ∈ sel then RecommendEngine.fillUniform f sel (stail s)
      else RecommendEngine.fillUniform f
        (sortAsc ((sel ++ [1 + shead s % 33]).take 6)) (stail s) := by
  conv => left; unfold RecommendEngine.fillUniform
  rw [if_neg h]

theorem fillUniform_zero {sel : List Nat} {s : RStream}
    (h : ¬ 6 ≤ sel.length) :
    RecommendEngine.fillUniform 0 sel s = .error .fuelOut := by
  unfold RecommendEngine.fillUniform
  rw [if_neg h]

theorem fillUniform_eq_fillRed :
    ∀ (fuel : Nat) (sel : List Nat) (s : RStream),
      RecommendEngine.fillUniform fuel sel s = fillRed fuel sel s := by
  intro fuel
  induction fuel with
  | zero =>
    intro sel s
    by_cases h6 : 6 ≤ sel.length
    · rw [fillUniform_stop h6, fillRed_stop h6]
    · rw [fillUniform_zero h6, fillRed_zero h6]
  | succ f ih =>
    intro sel s
    by_cases h6 : 6 ≤ sel.length
    · rw [fillUniform_stop h6, fillRed_stop h6]
    · rw [fillUniform_succ h6, fillRed_succ h6]
      by_cases hc : 1 + shead s % 33 ∈ sel
      · rw [if_pos hc, if_pos hc, ih]
      · rw [if_neg hc, if_neg hc, ih]

theorem fwAmendedOne_eq (rf bf : FreqTable) (fuel : Nat) (s : RStream) :
    RecommendEngine.fwAmendedOne rf bf fuel s =
      RecommendEngine.fwOne rf bf fuel s := by
  unfold RecommendEngine.fwAmendedOne RecommendEngine.fwOne
  rcases hx : choicesW allReds (redWeights rf s).1 6 (redWeights rf s).2
    with e | p
  · rfl
  · obtain ⟨cs, s2⟩ := p
    simp only
    rw [fillUniform_eq_fillRed]

theorem take_dominates (t : FreqTable) (k : Nat) :
    DominatesRest t ((sortByCountDesc t).take k) := by
  refine ⟨(sortByCountDesc t).drop k, ?_, ?_⟩
  · have hta : (sortByCountDesc t).take k ++ (sortByCountDesc t).drop k =
        sortByCountDesc t := List.take_append_drop k _
    rw [hta]
    exact (sortByCountDesc_perm t).symm
  · intro p hp q hq
    have hpw := sortByCountDesc_pairwise t
    rw [← List.take_append_drop k (sortByCountDesc t)] at hpw
    exact (List.pairwise_append.mp hpw).2.2 p hp q hq

theorem hasConsec_false_chain :
    ∀ {l : List Nat}, RecommendEngine.hasConsec l = false →
      l.Sorted (· < ·) → l.Chain' (fun a b => b ≠ a + 1) := by
  intro l
  induction l with
  | nil => intro _ _; exact List.chain'_nil
  | cons a t ih =>
    intro hc hs
    cases t with
    | nil => simp
    | cons b t' =>
      unfold RecommendEngine.hasConsec at hc
      rw [Bool.or_eq_false_iff] at hc
      have hba : b - a ≠ 1 := by
        intro hba'
        rw [show ((b - a == 1) = true) from beq_iff_eq.mpr hba'] at hc
        exact Bool.noConfusion hc.1
      have hab : a < b := List.rel_of_sorted_cons hs b (by simp)
      refine List.chain'_cons.mpr ⟨?_, ih hc.2 (List.Sorted.of_cons hs)⟩
      intro hbe
      exact hba (by omega)

theorem redAcc_eq (ro : Option (Option (List Int))) (bo : Option (Option Int))
    (reds : List Int) :
    (match ro with
      | some (some nums) => if nums.length = 6 then reds ++ nums else reds
      | _ => reds) = reds ++ redContrib ⟨ro, bo⟩ := by
  cases ro with
  | none => simp [redContrib]
  | some r' =>
    cases r' with
    | none => simp [redContrib]
    | some nums =>
      by_cases h6 : nums.length = 6
      · simp [redContrib, h6]
      · simp [redContrib, h6]

theorem blueAcc_eq (ro : Option (Option (List Int))) (bo : Option (Option Int))
    (blues : List Int) :
    (match bo with
      | some (some b) => blues ++ [b]
      | _ => blues) = blues ++ blueContrib ⟨ro, bo⟩ := by
  cases bo with
  | none => simp [blueContrib]
  | some b' =>
    cases b' with
    | none => simp [blueContrib]
    | some b => simp [blueContrib]

theorem parseAux_cons (item : RawRecord) (rest : List RawRecord)
    (reds blues : List Int) :
    SSQCore.parseAux (item :: rest) reds blues =
      SSQCore.parseAux rest (reds ++ redContrib item)
        (blues ++ blueContrib item) := by
  obtain ⟨ro, bo⟩ := item
  have h1 : SSQCore.parseAux (⟨ro, bo⟩ :: rest) reds blues =
      SSQCore.parseAux rest
        (match ro with
        | some (some nums) => if nums.length = 6 then reds ++ nums else reds
        | _ => reds)
        (match bo with
        | some (some b) => blues ++ [b]
        | _ => blues) := rfl
  rw [h1, redAcc_eq ro bo reds, blueAcc_eq ro bo blues]

theorem parseAux_eq :
    ∀ (data : List RawRecord) (reds blues : List Int),
      SSQCore.parseAux data reds blues =
        (reds ++ data.flatMap redContrib, blues ++ data.flatMap blueContrib) := by
  intro data
  induction data with
  | nil => intro reds blues; simp [SSQCore.parseAux]
  | cons item rest ih =>
    intro reds blues
    rw [parseAux_cons, ih]
    simp [List.append_assoc]

theorem send_items (q : MessageQueue) (m : MessageType) (d : Option String) :
    (MessageQueue.send q m d).items = q.items ++ [(m, d)] := rfl

theorem sendAll_items :
    ∀ (ms : List (MessageType × Option String)) (q : MessageQueue),
      (MessageQueue.sendAll q ms).items = q.items ++ ms := by
  intro ms
  induction ms with
  | nil => intro q; simp [MessageQueue.sendAll]
  | cons p rest ih =>
    intro q
    unfold MessageQueue.sendAll at ih ⊢
    rw [List.foldl_cons, ih]
    simp [send_items]

/-! ## Claim theorems -/

/-- C1 counterexample: the claim quantifies over *every* pair of frequency
tables, but with a red table holding one entry `(5, 1)` and a blue table
holding `(3, 1)`, `generate` with the pure-frequency strategy returns a
recommendation whose red list is `[5]` — one red value, not six. -/
theorem claim1_counterexample :
    (RecommendEngine.generate (.member .pure_frequency) [(5, 1)] [(3, 1)] 1 0
        czStream).map Prod.fst = .ok [⟨[5], 3⟩] ∧ ¬ ValidRec ⟨[5], 3⟩ :=
  ⟨rfl, fun hv => absurd hv.1 (by decide)⟩

/-- C1 (amended): for every strategy and requested count, every
recommendation in a list returned by `RecommendEngine.generate` has exactly
six distinct ascending red values in `[1, 33]` and one blue value in
`[1, 16]` — unconditionally for six of the eight strategies, and under the
side conditions `PureFreqOK` (at least six distinct red keys in domain,
blue keys in domain) for pure-frequency and `HotColdOK` (distinct in-domain
keys and disjoint hottest/coldest key lists) for hot-cold-balance. -/
theorem claim1_generate_valid :
    ∀ (alg : AlgArg) (rf bf : FreqTable) (count fuel : Nat) (s : RStream)
      (recs : List Recommendation), C1Hyp alg rf bf →
      (RecommendEngine.generate alg rf bf count fuel s).map Prod.fst =
        .ok recs →
      ∀ r ∈ recs, ValidRec r := by
  intro alg rf bf count fuel s recs hhyp hmap
  obtain ⟨s', hg⟩ := map_fst_ok hmap
  cases alg with
  | other tag =>
    exact genLoop_ok_forall (fun s0 r s0' h => fwOne_ok_valid h)
      count s recs s' hg
  | member a =>
    cases a with
    | frequency_weighted =>
      exact genLoop_ok_forall (fun s0 r s0' h => fwOne_ok_valid h)
        count s recs s' hg
    | pure_random =>
      exact genLoop_ok_forall (fun s0 r s0' h => prOne_ok_valid h)
        count s recs s' hg
    | pure_frequency =>
      have hg' : (RecommendEngine.pure_frequency rf bf count).map
          (fun l => (l, s)) = .ok (recs, s') := hg
      rcases hpf : RecommendEngine.pure_frequency rf bf count with e | l
      · rw [hpf] at hg'
        simp [Except.map] at hg'
      · rw [hpf] at hg'
        simp [Except.map] at hg'
        exact hg'.1 ▸ pure_frequency_valid hhyp hpf
    | hot_cold_balance =>
      exact genLoop_ok_forall (fun s0 r s0' h => hcOne_ok_valid hhyp h)
        count s recs s' hg
    | interval_distribution =>
      exact genLoop_ok_forall (fun s0 r s0' h => idOne_ok_valid h)
        count s recs s' hg
    | odd_even_balance =>
      exact genLoop_ok_forall (fun s0 r s0' h => oeOne_ok_valid h)
        count s recs s' hg
    | sum_optimized =>
      exact genLoop_ok_forall (fun s0 r s0' h => (soOne_ok_valid h).1)
        count s recs s' hg
    | no_consecutive =>
      exact genLoop_ok_forall (fun s0 r s0' h => (ncOne_ok_valid h).1)
        count s recs s' hg

/-- Witness for C1: the pure-random strategy on the all-zero stream returns
`red = [1..6], blue = 1`, which is structurally valid. -/
theorem claim1_witness :
    (RecommendEngine.generate (.member .pure_random) [] [] 1 0 czStream).map
        Prod.fst = .ok [⟨[1, 2, 3, 4, 5, 6], 1⟩] ∧
      ValidRec ⟨[1, 2, 3, 4, 5, 6], 1⟩ :=
  ⟨rfl, claim1_generate_valid (.member .pure_random) [] [] 1 0 czStream
    [⟨[1, 2, 3, 4, 5, 6], 1⟩] trivial rfl ⟨[1, 2, 3, 4, 5, 6], 1⟩
    (List.mem_singleton.mpr rfl)⟩

/-- C2 counterexample: with both frequency tables empty, the engine raises:
the pure-frequency strategy indexes the empty sorted blue table
(`sorted(blue_freq.items(), ...)[0]`), an `IndexError`.  So "the
recommendation engine never raises on empty tables" is false as stated. -/
theorem claim2_counterexample :
    RecommendEngine.generate (.member .pure_frequency) [] [] 5 0 czStream =
      .error .indexEmpty := rfl

/-- C2 (amended): restricted to the weighted strategy the claim holds — on
empty tables `_frequency_weighted` substitutes the uniform default weight 1
for every domain value (`dict.get(num, 1)` and the all-ones blue weight
list), never raises (its only non-value outcome is fuel exhaustion of the
top-up loop, i.e. non-termination, never a Python exception or a division
by zero), and every recommendation list it returns is structurally valid. -/
theorem claim2_fw_empty_safe :
    ∀ (count fuel : Nat) (s : RStream),
      (∀ e, RecommendEngine.frequency_weighted [] [] count fuel s = .error e →
        e = .fuelOut) ∧
      (∀ recs, (RecommendEngine.frequency_weighted [] [] count fuel s).map
          Prod.fst = .ok recs → ∀ r ∈ recs, ValidRec r) ∧
      blueWeights [] = List.replicate 16 1 ∧ (∀ n d, pyGet [] n d = d) := by
  intro count fuel s
  refine ⟨?_, ?_, blueWeights_empty, fun n d => rfl⟩
  · intro e he
    obtain ⟨s0, h0⟩ := genLoop_error count s e he
    exact fwOne_empty_err h0
  · intro recs hmap
    obtain ⟨s', hg⟩ := map_fst_ok hmap
    exact genLoop_ok_forall (fun s0 r s0' h => fwOne_ok_valid h)
      count s recs s' hg

/-- Witness for C2: on the identity stream with empty tables, the weighted
strategy returns `red = [1..6], blue = 8`, a structurally valid result. -/
theorem claim2_witness :
    (RecommendEngine.frequency_weighted [] [] 1 1 idStream).map Prod.fst =
        .ok [⟨[1, 2, 3, 4, 5, 6], 8⟩] ∧ ValidRec ⟨[1, 2, 3, 4, 5, 6], 8⟩ :=
  ⟨rfl, (claim2_fw_empty_safe 1 1 idStream).2.1 [⟨[1, 2, 3, 4, 5, 6], 8⟩] rfl
    ⟨[1, 2, 3, 4, 5, 6], 8⟩ (List.mem_singleton.mpr rfl)⟩

/-- C3 counterexample: ties are broken by the table's insertion order, not
by ascending number.  In `tieRedT` all seven entries have count 1 but the
number 33 was inserted first, so the code returns `{1, 2, 3, 4, 5, 33}`
where an ascending tie-break would return `{1, 2, 3, 4, 5, 6}`. -/
theorem claim3_counterexample :
    RecommendEngine.pure_frequency tieRedT [(1, 1)] 1 =
        .ok [⟨[1, 2, 3, 4, 5, 33], 1⟩] ∧
      ([1, 2, 3, 4, 5, 33] : List Nat) ≠ [1, 2, 3, 4, 5, 6] :=
  ⟨rfl, by decide⟩

/-- C3 (amended): pure-frequency is deterministic — all `N` recommendations
of one call are equal, the list has length `N`, the red set is the sorted
key list of a six-entry sub-collection of the red table whose counts
dominate every remaining entry (ties broken by the table's insertion order,
which the stable descending sort preserves), and the blue value is a key of
maximal count in the blue table.  Repeated calls agree because the function
is deterministic in its arguments. -/
theorem claim3_pure_frequency_top :
    ∀ (rf bf : FreqTable) (count : Nat) (recs : List Recommendation),
      RecommendEngine.pure_frequency rf bf count = .ok recs →
      recs.length = count ∧
      (∀ r ∈ recs, ∀ r2 ∈ recs, r = r2) ∧
      ∀ r ∈ recs,
        r.red = sortAsc (RecommendEngine.topSixKeys rf) ∧
        DominatesRest rf ((sortByCountDesc rf).take 6) ∧
        BlueIsMax bf r.blue := by
  intro rf bf count recs h
  obtain ⟨p, tl, hbd, hrecs⟩ := pure_frequency_ok h
  subst hrecs
  refine ⟨List.length_replicate _ _, ?_, ?_⟩
  · intro r hr r2 hr2
    rw [List.eq_of_mem_replicate hr, List.eq_of_mem_replicate hr2]
  · intro r hr
    rw [List.eq_of_mem_replicate hr]
    exact ⟨rfl, take_dominates rf 6, head_desc_max hbd⟩

/-- Witness for C3, realising the spec's example: with `redFreq = {1: 10,
others: 1}` (ascending insertion) the strategy returns
`red = {1, 2, 3, 4, 5, 6}` and the blue value maximises the blue counts. -/
theorem claim3_witness :
    RecommendEngine.pure_frequency exRedT exBlueT 1 =
        .ok [⟨[1, 2, 3, 4, 5, 6], 1⟩] ∧ BlueIsMax exBlueT 1 :=
  ⟨rfl, ((claim3_pure_frequency_top exRedT exBlueT 1
      [⟨[1, 2, 3, 4, 5, 6], 1⟩] rfl).2.2 ⟨[1, 2, 3, 4, 5, 6], 1⟩
      (List.mem_singleton.mpr rfl)).2.2⟩

/-- C4: the source does *not* bound its rejection-sampling loops.  On the
all-zero stream every `random.sample` yields `{1, 2, 3, 4, 5, 6}` (sum 21,
consecutive), so both `while True:` loops reject forever: for every fuel
bound the embedded loops and both strategies report fuel exhaustion, i.e.
generation is not total. -/
theorem claim4_unbounded_loops :
    ∀ (fuel count : Nat),
      RecommendEngine.soLoop fuel czStream = .error .fuelOut ∧
      RecommendEngine.ncLoop fuel czStream = .error .fuelOut ∧
      RecommendEngine.sum_optimized [] [] (count + 1) fuel czStream =
        .error .fuelOut ∧
      RecommendEngine.no_consecutive [] [] (count + 1) fuel czStream =
        .error .fuelOut := by
  have hso : ∀ fuel, RecommendEngine.soLoop fuel czStream = .error .fuelOut := by
    intro fuel
    induction fuel with
    | zero => rfl
    | succ f ih =>
      exact (rfl : RecommendEngine.soLoop (f + 1) czStream =
        RecommendEngine.soLoop f czStream).trans ih
  have hnc : ∀ fuel, RecommendEngine.ncLoop fuel czStream = .error .fuelOut := by
    intro fuel
    induction fuel with
    | zero => rfl
    | succ f ih =>
      exact (rfl : RecommendEngine.ncLoop (f + 1) czStream =
        RecommendEngine.ncLoop f czStream).trans ih
  intro fuel count
  have h1 : RecommendEngine.soOne fuel czStream = .error .fuelOut := by
    unfold RecommendEngine.soOne
    rw [hso fuel]
  have h2 : RecommendEngine.ncOne fuel czStream = .error .fuelOut := by
    unfold RecommendEngine.ncOne
    rw [hnc fuel]
  refine ⟨hso fuel, hnc fuel, ?_, ?_⟩
  · unfold RecommendEngine.sum_optimized
    rw [genLoop_succ_eq, h1]
  · unfold RecommendEngine.no_consecutive
    rw [genLoop_succ_eq, h2]

/-- C5 counterexample: on `collideStream` the first weighted batch draws
the number 1 six times.  The source's code deduplicates and tops the set up
with *uniform* draws, succeeding with `red = [1..6]`; the spec-worded
algorithm (`frequency_weighted_spec`, which retries the *weighted* batch
until six distinct numbers appear) keeps drawing 1s and never terminates
(fuel exhaustion at the same fuel bound).  The two mechanisms differ. -/
theorem claim5_counterexample :
    (RecommendEngine.frequency_weighted [] [] 1 9 collideStream).map
        Prod.fst = .ok [⟨[1, 2, 3, 4, 5, 6], 1⟩] ∧
      (RecommendEngine.frequency_weighted_spec [] [] 1 9 collideStream).map
        Prod.fst = .error .fuelOut ∧
      (RecommendEngine.frequency_weighted [] [] 1 9 collideStream).map
          Prod.fst ≠
        (RecommendEngine.frequency_weighted_spec [] [] 1 9 collideStream).map
          Prod.fst :=
  ⟨rfl, rfl, fun hc => Except.noConfusion hc⟩

/-- C5 (amended): the weighted-frequency strategy selects its reds by one
weighted batch of six draws *with replacement* (weight `freq(n)` plus a
`uniform(0.1, 1.0)` jitter), deduplicates and sorts it, then fills up to six
distinct values with *uniform* draws rejecting already-selected numbers;
the blue is one draw weighted by blue frequency.  The strategy is equal to
`frequency_weighted_amended`, the transcription of this description. -/
theorem claim5_fw_mechanism :
    ∀ (rf bf : FreqTable) (count fuel : Nat) (s : RStream),
      RecommendEngine.frequency_weighted rf bf count fuel s =
        RecommendEngine.frequency_weighted_amended rf bf count fuel s := by
  intro rf bf count fuel s
  unfold RecommendEngine.frequency_weighted
    RecommendEngine.frequency_weighted_amended
  rw [show RecommendEngine.fwAmendedOne rf bf fuel =
      RecommendEngine.fwOne rf bf fuel from funext (fwAmendedOne_eq rf bf fuel)]

/-- C6: every recommendation produced by the sum-optimized strategy has a
red sum in `[80, 140]`, for every count, fuel bound and random stream under
which it terminates. -/
theorem claim6_sum_range :
    ∀ (rf bf : FreqTable) (count fuel : Nat) (s : RStream)
      (recs : List Recommendation),
      (RecommendEngine.sum_optimized rf bf count fuel s).map Prod.fst =
        .ok recs →
      ∀ r ∈ recs, 80 ≤ r.red.sum ∧ r.red.sum ≤ 140 := by
  intro rf bf count fuel s recs hmap
  obtain ⟨s', hg⟩ := map_fst_ok hmap
  exact genLoop_ok_forall (fun s0 r s0' h => (soOne_ok_valid h).2)
    count s recs s' hg

/-- Witness for C6: on the constant-14 stream the strategy returns
`red = [15..20]` with sum 105, inside `[80, 140]`. -/
theorem claim6_witness :
    (RecommendEngine.sum_optimized [] [] 1 1 teenStream).map Prod.fst =
        .ok [⟨[15, 16, 17, 18, 19, 20], 15⟩] ∧
      80 ≤ ([15, 16, 17, 18, 19, 20] : List Nat).sum ∧
      ([15, 16, 17, 18, 19, 20] : List Nat).sum ≤ 140 :=
  ⟨rfl, claim6_sum_range [] [] 1 1 teenStream [⟨[15, 16, 17, 18, 19, 20], 15⟩]
    rfl ⟨[15, 16, 17, 18, 19, 20], 15⟩ (List.mem_singleton.mpr rfl)⟩

/-- C7: in every recommendation produced by the no-consecutive strategy the
red list is sorted and no two adjacent values differ by exactly one (the
source's `has_consecutive` check is false, equivalently no adjacent pair
satisfies `b = a + 1`), for every count, fuel and stream under which the
strategy terminates. -/
theorem claim7_no_consecutive :
    ∀ (rf bf : FreqTable) (count fuel : Nat) (s : RStream)
      (recs : List Recommendation),
      (RecommendEngine.no_consecutive rf bf count fuel s).map Prod.fst =
        .ok recs →
      ∀ r ∈ recs, r.red.Sorted (· < ·) ∧
        RecommendEngine.hasConsec r.red = false ∧
        r.red.Chain' (fun a b => b ≠ a + 1) := by
  intro rf bf count fuel s recs hmap
  obtain ⟨s', hg⟩ := map_fst_ok hmap
  refine genLoop_ok_forall (fun s0 r s0' h => ?_) count s recs s' hg
  obtain ⟨hv, hnc⟩ := ncOne_ok_valid h
  exact ⟨hv.2.1, hnc, hasConsec_false_chain hnc hv.2.1⟩

/-- Witness for C7: on the stride-3 stream the strategy returns
`red = [1, 5, 9, 13, 17, 21]`, which has no consecutive pair. -/
theorem claim7_witness :
    (RecommendEngine.no_consecutive [] [] 1 1 strideStream).map Prod.fst =
        .ok [⟨[1, 5, 9, 13, 17, 21], 3⟩] ∧
      RecommendEngine.hasConsec [1, 5, 9, 13, 17, 21] = false :=
  ⟨rfl, (claim7_no_consecutive [] [] 1 1 strideStream
    [⟨[1, 5, 9, 13, 17, 21], 3⟩] rfl ⟨[1, 5, 9, 13, 17, 21], 3⟩
    (List.mem_singleton.mpr rfl)).2.1⟩

/-- C8: `parse_numbers` is total (it is a Lean function) and its output is
the record-wise concatenation of per-record contributions: each record
contributes its six decoded reds exactly when its red field decodes to
exactly six integers, and its decoded blue exactly when the blue field
decodes, independently per record and independently between the two
fields; consequently parsing distributes over batch concatenation. -/
theorem claim8_parse_numbers :
    ∀ (data d2 : List RawRecord),
      SSQCore.parse_numbers data =
        (data.flatMap redContrib, data.flatMap blueContrib) ∧
      SSQCore.parse_numbers (data ++ d2) =
        ((SSQCore.parse_numbers data).1 ++ (SSQCore.parse_numbers d2).1,
          (SSQCore.parse_numbers data).2 ++ (SSQCore.parse_numbers d2).2) := by
  intro data d2
  have hbase : ∀ dd : List RawRecord, SSQCore.parse_numbers dd =
      (dd.flatMap redContrib, dd.flatMap blueContrib) := by
    intro dd
    unfold SSQCore.parse_numbers
    rw [parseAux_eq]
    simp
  refine ⟨hbase data, ?_⟩
  rw [hbase (data ++ d2), hbase data, hbase d2]
  simp [List.flatMap_append]

/-- C9: `MessageQueue.receive` on an empty queue returns the no-message
value `(None, None)` immediately (it is a total function, no blocking), on
a non-empty queue returns the oldest pair and removes it, and sending
appends at the back, so the head of the queue is always the oldest
message. -/
theorem claim9_receive :
    ∀ (q : MessageQueue) (m : MessageType × Option String)
      (rest ms : List (MessageType × Option String)),
      (q.items = [] → MessageQueue.receive q = (none, q)) ∧
      (q.items = m :: rest → MessageQueue.receive q = (some m, ⟨rest⟩)) ∧
      (MessageQueue.sendAll q ms).items = q.items ++ ms := by
  intro q m rest ms
  obtain ⟨items⟩ := q
  refine ⟨?_, ?_, sendAll_items ms ⟨items⟩⟩
  · intro h
    dsimp only at h
    subst h
    rfl
  · intro h
    dsimp only at h
    subst h
    rfl

/-- Witness for C9: receiving on the empty queue yields the no-message
value, and receiving on a two-element queue yields the oldest message while
leaving the newer one queued. -/
theorem claim9_witness :
    MessageQueue.receive ⟨[]⟩ = (none, ⟨[]⟩) ∧
      MessageQueue.receive ⟨[(MessageType.fetch_success, none),
          (MessageType.progress_start, none)]⟩ =
        (some (MessageType.fetch_success, none),
          ⟨[(MessageType.progress_start, none)]⟩) :=
  ⟨(claim9_receive ⟨[]⟩ (MessageType.fetch_success, none) [] []).1 rfl,
    (claim9_receive ⟨[(MessageType.fetch_success, none),
        (MessageType.progress_start, none)]⟩ (MessageType.fetch_success, none)
      [(MessageType.progress_start, none)] []).2.1 rfl⟩

/-- C10: for every algorithm argument that is not one of the eight
enumeration members, `generate` silently falls through its dispatch to the
frequency-weighted strategy applied to the same tables and count. -/
theorem claim10_default_dispatch :
    ∀ (tag : Nat) (rf bf : FreqTable) (count fuel : Nat) (s : RStream),
      RecommendEngine.generate (.other tag) rf bf count fuel s =
        RecommendEngine.frequency_weighted rf bf count fuel s :=
  fun _ _ _ _ _ _ => rfl
